import Mathlib

/-!
Shallow embedding of the tdepend dependency-analysis pipeline.

The embedding follows the TypeScript sources:
* `src/types/parser.ts`, `src/types/graph.ts` — the data model;
* `src/graph/dependencyGraph.ts` — graph construction (`DependencyGraph`);
* the cycle detector (`strongConnect` / `detectCycles`, Tarjan's algorithm);
* `src/metrics/*` — `computeAbstractness`, `computeInstability`,
  `computeDistance`, `computeAllMetrics`;
* `src/analysis/reporter.ts` — `generateReport`;
* `src/api/serialization.ts` — `normalizeCycle`.

Modelling conventions:
* JavaScript `Set<string>` values (insertion-ordered, duplicate-free) are
  modelled as `List String` together with the insertion function `setAdd`;
  `Set.size` becomes `List.length`.
* JavaScript `Map` values (insertion-ordered keys, last write wins) are
  modelled as association lists (`mset` / `mget`), and the node table of a
  `DependencyGraph` as an insertion-ordered `List DependencyNode` with
  unique `filePath` keys.
* JavaScript numbers are modelled as `ℚ` (the metric computations only use
  exact arithmetic on small integer counts and their quotients).
* The SHA-256 digest used by `normalizeCycle` comes from Node's `crypto`
  library, which is external to the repository; the embedding is
  parametric in that digest function (`hash : String → String`).
-/

namespace TDepend

/-- `ParsedClass` from `src/types/parser.ts`. -/
structure ParsedClass where
  name : String
  isAbstract : Bool
  isExported : Bool
  filePath : String
deriving DecidableEq, Repr

/-- `ParsedNamespace` from `src/types/parser.ts`. -/
structure ParsedNamespace where
  name : String
  filePath : String
deriving DecidableEq, Repr

/-- `ParsedModule` from `src/types/parser.ts`. -/
structure ParsedModule where
  filePath : String
  imports : List String
  exports : List String
  classes : List ParsedClass
  namespaces : List ParsedNamespace
  interfaces : Nat
  totalTypes : Nat
deriving DecidableEq, Repr

/-- `DependencyNode` from `src/types/graph.ts`; the two `Set<string>`
fields are insertion-ordered duplicate-free lists. -/
structure DependencyNode where
  filePath : String
  dependencies : List String
  dependents : List String
deriving DecidableEq, Repr

/-- JavaScript `Set.add`: append iff not already present. -/
def setAdd (s : List String) (x : String) : List String :=
  if x ∈ s then s else s ++ [x]

/-- The node table of `DependencyGraph` (`src/graph/dependencyGraph.ts`):
a `Map<string, DependencyNode>` in insertion order. -/
structure DependencyGraph where
  nodes : List DependencyNode
deriving DecidableEq, Repr

/-- `DependencyGraph.getNode`. -/
def DependencyGraph.getNode (g : DependencyGraph) (filePath : String) :
    Option DependencyNode :=
  g.nodes.find? (fun n => n.filePath = filePath)

/-- `DependencyGraph.getAllNodes` (insertion order of the `Map`). -/
def DependencyGraph.getAllNodes (g : DependencyGraph) : List DependencyNode :=
  g.nodes

/-- `DependencyGraph.addNode`. -/
def addNode (g : DependencyGraph) (filePath : String) : DependencyGraph :=
  if (g.getNode filePath).isSome then g
  else ⟨g.nodes ++ [⟨filePath, [], []⟩]⟩

/-- In-place mutation of the node stored under a key of the `Map`
(JavaScript mutates the `DependencyNode` object obtained by `get`). -/
def updateNode (g : DependencyGraph) (filePath : String)
    (f : DependencyNode → DependencyNode) : DependencyGraph :=
  ⟨g.nodes.map (fun n => if n.filePath = filePath then f n else n)⟩

/-- `DependencyGraph.addEdge`: ensure both endpoints exist, append `dst`
to the dependency set of `src` and `src` to the dependent set of `dst`. -/
def addEdge (g : DependencyGraph) (src dst : String) : DependencyGraph :=
  updateNode
    (updateNode (addNode (addNode g src) dst) src
      (fun n => { n with dependencies := setAdd n.dependencies dst }))
    dst (fun n => { n with dependents := setAdd n.dependents src })

/-- The `DependencyGraph` constructor: add a node per module, then an edge
per import. -/
def buildGraph (modules : List ParsedModule) : DependencyGraph :=
  let g0 := modules.foldl (fun g m => addNode g m.filePath) ⟨[]⟩
  modules.foldl
    (fun g m => m.imports.foldl (fun g imp => addEdge g m.filePath imp) g) g0

/-- `computeAbstractness` from `src/metrics/abstractness.ts`. -/
def computeAbstractness (m : ParsedModule) : ℚ :=
  let abstractClasses := (m.classes.filter (fun c => c.isAbstract)).length
  let abstractTypes := m.interfaces + abstractClasses
  let totalTypes := m.totalTypes
  if totalTypes = 0 then 0 else (abstractTypes : ℚ) / (totalTypes : ℚ)

/-- `computeInstability` from `src/metrics/instability.ts`. -/
def computeInstability (Ca Ce : Nat) : ℚ :=
  let total := Ca + Ce
  if total = 0 then 0 else (Ce : ℚ) / (total : ℚ)

/-- Modelled from the spec: the file `src/metrics/distance.ts` is absent
from the sources (only its callers and its unit tests are present);
the spec states `distance(N) = |abstractness(N) + instability(N) − 1|`,
which also matches the expectations in `src/tests/metrics.test.ts`. -/
def computeDistance (abstractness instability : ℚ) : ℚ :=
  |abstractness + instability - 1|

/-- `ModuleMetrics` from `src/types/graph.ts`. -/
structure ModuleMetrics where
  filePath : String
  Ca : Nat
  Ce : Nat
  cycles : List (List String)
  abstractness : ℚ
  instability : ℚ
  distance : ℚ
deriving DecidableEq, Repr

/-- `new Map(modules.map(m => [m.filePath, m])).get(p)`: the lookup sees
the last occurrence of a duplicated key (later `Map` entries overwrite
earlier ones). -/
def moduleMapGet (modules : List ParsedModule) (p : String) :
    Option ParsedModule :=
  modules.foldl (fun acc m => if m.filePath = p then some m else acc) none

/-- `computeAllMetrics` from `src/metrics/index.ts`. -/
def computeAllMetrics (g : DependencyGraph) (modules : List ParsedModule)
    (cycles : List (List String)) : List ModuleMetrics :=
  g.getAllNodes.map (fun node =>
    let module := moduleMapGet modules node.filePath
    let moduleCycles := cycles.filter (fun c => node.filePath ∈ c)
    let Ca := node.dependents.length
    let Ce := node.dependencies.length
    let abstractness := match module with
      | some m => computeAbstractness m
      | none => 0
    let instability := computeInstability Ca Ce
    let distance := computeDistance abstractness instability
    { filePath := node.filePath, Ca := Ca, Ce := Ce, cycles := moduleCycles,
      abstractness := abstractness, instability := instability,
      distance := distance })

/-- `metrics.thresholds` from `src/config/schema.ts`. -/
structure Thresholds where
  distance : ℚ
deriving DecidableEq, Repr

/-- `metrics` section of the configuration (`src/config/schema.ts`). -/
structure MetricsConfig where
  enabled : List String
  thresholds : Thresholds
deriving DecidableEq, Repr

/-- `analysis` section of the configuration (`src/config/schema.ts`). -/
structure AnalysisConfig where
  target : Option String
  value : Option String
deriving DecidableEq, Repr

/-- `ci` section of the configuration (`src/config/schema.ts`). -/
structure CiConfig where
  failOnThreshold : Bool
  failOnCycle : Bool
  outputFormat : String
deriving DecidableEq, Repr

/-- `TDependConfig` from `src/config/schema.ts` (the glob pattern fields
`rootDir`/`include`/`exclude` only drive the file scanner and are omitted;
no claim mentions them). -/
structure TDependConfig where
  metrics : MetricsConfig
  analysis : AnalysisConfig
  ci : CiConfig
deriving DecidableEq, Repr

/-- `AnalysisReport.summary` from `src/analysis/reporter.ts`. -/
structure AnalysisSummary where
  totalModules : Nat
  totalImports : Nat
  totalExports : Nat
  totalClasses : Nat
  totalInterfaces : Nat
  cyclesDetected : Nat
deriving DecidableEq, Repr

/-- `AnalysisReport.violations` from `src/analysis/reporter.ts`. -/
structure ReportViolations where
  cycles : List (List String)
  thresholdExceeded : List ModuleMetrics
deriving DecidableEq, Repr

/-- `AnalysisReport` from `src/analysis/reporter.ts`. -/
structure AnalysisReport where
  summary : AnalysisSummary
  metrics : List ModuleMetrics
  violations : ReportViolations
  success : Bool
deriving DecidableEq, Repr

/-- `generateReport` from `src/analysis/reporter.ts`. -/
def generateReport (modules : List ParsedModule)
    (metrics : List ModuleMetrics) (cycles : List (List String))
    (config : TDependConfig) : AnalysisReport :=
  let totalImports := modules.foldl (fun sum m => sum + m.imports.length) 0
  let totalExports := modules.foldl (fun sum m => sum + m.exports.length) 0
  let totalClasses := modules.foldl (fun sum m => sum + m.classes.length) 0
  let totalInterfaces := modules.foldl (fun sum m => sum + m.interfaces) 0
  let thresholdViolations :=
    metrics.filter (fun m => config.metrics.thresholds.distance < m.distance)
  let hasCycleViolation := decide (0 < cycles.length) && config.ci.failOnCycle
  let hasThresholdViolation :=
    decide (0 < thresholdViolations.length) && config.ci.failOnThreshold
  { summary :=
      { totalModules := modules.length
        totalImports := totalImports
        totalExports := totalExports
        totalClasses := totalClasses
        totalInterfaces := totalInterfaces
        cyclesDetected := cycles.length }
    metrics := metrics
    violations := { cycles := cycles, thresholdExceeded := thresholdViolations }
    success := !hasCycleViolation && !hasThresholdViolation }

/-- A `ParsedModule` is well formed when its `totalTypes` field is the
derived count the parser stores there (`src/parser/tsParser.ts`:
`totalTypes = classes.length + interfaces`). -/
def ParsedModule.WellFormed (m : ParsedModule) : Prop :=
  m.totalTypes = m.classes.length + m.interfaces

/-- C2: `generateReport` succeeds iff no enabled gate is triggered; the
threshold comparison is strictly greater-than, and a disabled gate never
affects success. -/
theorem generateReport_success_iff (modules : List ParsedModule)
    (metrics : List ModuleMetrics) (cycles : List (List String))
    (config : TDependConfig) :
    (generateReport modules metrics cycles config).success = true ↔
      (¬(config.ci.failOnCycle = true ∧ cycles ≠ []) ∧
       ¬(config.ci.failOnThreshold = true ∧
          ∃ m ∈ metrics, config.metrics.thresholds.distance < m.distance)) := by
  simp only [generateReport, Bool.and_eq_true, Bool.not_eq_true',
    Bool.and_eq_false_iff, decide_eq_false_iff_not, not_lt,
    Nat.le_zero, List.length_eq_zero]
  constructor
  · rintro ⟨h1, h2⟩
    constructor
    · rintro ⟨hc, hne⟩
      rcases h1 with h1 | h1
      · exact hne h1
      · simp [hc] at h1
    · rintro ⟨ht, m, hm, hlt⟩
      rcases h2 with h2 | h2
      · rw [List.filter_eq_nil_iff] at h2
        exact absurd hlt (by simpa using h2 m hm)
      · simp [ht] at h2
  · rintro ⟨h1, h2⟩
    constructor
    · by_cases hc : config.ci.failOnCycle = true
      · left
        by_contra hne
        exact h1 ⟨hc, hne⟩
      · right
        simpa using hc
    · by_cases ht : config.ci.failOnThreshold = true
      · left
        rw [List.filter_eq_nil_iff]
        intro m hm
        simp only [decide_eq_true_eq, not_lt]
        by_contra hlt
        exact h2 ⟨ht, m, hm, by linarith [lt_of_not_le hlt]⟩
      · right
        simpa using ht

/-- C3: every entry produced by `computeAllMetrics` comes from a graph node;
its instability is `0` when `Ca+Ce = 0` and `Ce/(Ca+Ce)` otherwise; its
abstractness is `0` when no `ParsedModule` record exists for the node, and
otherwise `0` for a module without types and
`(abstract classes + interfaces) / totalTypes` for the rest — every
division is guarded, so the computation is total. -/
theorem computeAllMetrics_guarded (g : DependencyGraph)
    (modules : List ParsedModule) (cycles : List (List String))
    (m : ModuleMetrics) (hm : m ∈ computeAllMetrics g modules cycles) :
    ∃ node ∈ g.getAllNodes,
      m.filePath = node.filePath ∧
      m.Ca = node.dependents.length ∧ m.Ce = node.dependencies.length ∧
      (m.instability =
        if m.Ca + m.Ce = 0 then 0 else (m.Ce : ℚ) / ((m.Ca : ℚ) + (m.Ce : ℚ))) ∧
      (moduleMapGet modules node.filePath = none → m.abstractness = 0) ∧
      (∀ md, moduleMapGet modules node.filePath = some md →
        m.abstractness =
          if md.totalTypes = 0 then 0
          else (((md.classes.filter (fun c => c.isAbstract)).length : ℚ) +
                  (md.interfaces : ℚ)) / (md.totalTypes : ℚ)) := by
  rcases List.mem_map.mp hm with ⟨node, hnode, rfl⟩
  refine ⟨node, hnode, rfl, rfl, rfl, ?_, ?_, ?_⟩
  · by_cases h : node.dependents.length + node.dependencies.length = 0
    · simp [computeInstability, h]
    · simp only [computeInstability, h, if_false]
      push_cast
      ring
  · intro h
    simp [h]
  · intro md h
    simp only [h]
    by_cases hz : md.totalTypes = 0
    · simp [computeAbstractness, hz]
    · simp only [computeAbstractness, hz, if_false]
      push_cast
      ring

/-- Witness for `computeAllMetrics_guarded` at a concrete one-node graph. -/
theorem computeAllMetrics_guarded_witness :
    ∃ node ∈ (DependencyGraph.mk [⟨"a", ["b"], []⟩]).getAllNodes,
      (ModuleMetrics.mk "a" 0 1 [] 0 1 0).filePath = node.filePath ∧
      (ModuleMetrics.mk "a" 0 1 [] 0 1 0).Ca = node.dependents.length ∧
      (ModuleMetrics.mk "a" 0 1 [] 0 1 0).Ce = node.dependencies.length ∧
      ((ModuleMetrics.mk "a" 0 1 [] 0 1 0).instability =
        if (ModuleMetrics.mk "a" 0 1 [] 0 1 0).Ca +
            (ModuleMetrics.mk "a" 0 1 [] 0 1 0).Ce = 0 then 0
        else ((ModuleMetrics.mk "a" 0 1 [] 0 1 0).Ce : ℚ) /
          (((ModuleMetrics.mk "a" 0 1 [] 0 1 0).Ca : ℚ) +
            ((ModuleMetrics.mk "a" 0 1 [] 0 1 0).Ce : ℚ))) ∧
      (moduleMapGet [] node.filePath = none →
        (ModuleMetrics.mk "a" 0 1 [] 0 1 0).abstractness = 0) ∧
      (∀ md, moduleMapGet [] node.filePath = some md →
        (ModuleMetrics.mk "a" 0 1 [] 0 1 0).abstractness =
          if md.totalTypes = 0 then 0
          else (((md.classes.filter (fun c => c.isAbstract)).length : ℚ) +
                  (md.interfaces : ℚ)) / (md.totalTypes : ℚ)) :=
  computeAllMetrics_guarded (DependencyGraph.mk [⟨"a", ["b"], []⟩]) [] []
    (ModuleMetrics.mk "a" 0 1 [] 0 1 0)
    (by simp [computeAllMetrics, DependencyGraph.getAllNodes, moduleMapGet,
      computeInstability, computeDistance, computeAbstractness])

/-- C4: `computeDistance` is `|A + I − 1|`; it maps `[0,1]²` into `[0,1]`,
vanishes exactly on the main sequence `A + I = 1`, equals `1` at both
corners `(0,0)` and `(1,1)`, and for a well-formed module the computed
abstractness, instability and distance all lie in `[0,1]`. -/
theorem computeDistance_main_sequence (m : ParsedModule)
    (hm : m.WellFormed) (Ca Ce : Nat) (a i : ℚ)
    (ha0 : 0 ≤ a) (ha1 : a ≤ 1) (hi0 : 0 ≤ i) (hi1 : i ≤ 1) :
    computeDistance a i = |a + i - 1| ∧
    (0 ≤ computeDistance a i ∧ computeDistance a i ≤ 1) ∧
    (computeDistance a i = 0 ↔ a + i = 1) ∧
    computeDistance 0 0 = 1 ∧ computeDistance 1 1 = 1 ∧
    (0 ≤ computeAbstractness m ∧ computeAbstractness m ≤ 1) ∧
    (0 ≤ computeInstability Ca Ce ∧ computeInstability Ca Ce ≤ 1) ∧
    (0 ≤ computeDistance (computeAbstractness m) (computeInstability Ca Ce) ∧
     computeDistance (computeAbstractness m) (computeInstability Ca Ce) ≤ 1) := by
  have habs : ∀ x y : ℚ, 0 ≤ x → x ≤ 1 → 0 ≤ y → y ≤ 1 →
      0 ≤ computeDistance x y ∧ computeDistance x y ≤ 1 := by
    intro x y hx0 hx1 hy0 hy1
    refine ⟨abs_nonneg _, abs_le.mpr ⟨by linarith, by linarith⟩⟩
  have hA : 0 ≤ computeAbstractness m ∧ computeAbstractness m ≤ 1 := by
    unfold computeAbstractness
    by_cases hz : m.totalTypes = 0
    · simp [hz]
    · simp only [hz, if_false]
      have hpos : (0 : ℚ) < (m.totalTypes : ℚ) := by
        exact_mod_cast Nat.pos_of_ne_zero hz
      constructor
      · positivity
      · rw [div_le_one hpos]
        have hle : m.interfaces + (m.classes.filter (fun c => c.isAbstract)).length
            ≤ m.totalTypes := by
          rw [hm]
          have := List.length_filter_le (fun c => c.isAbstract) m.classes
          omega
        exact_mod_cast hle
  have hI : 0 ≤ computeInstability Ca Ce ∧ computeInstability Ca Ce ≤ 1 := by
    unfold computeInstability
    by_cases hz : Ca + Ce = 0
    · simp [hz]
    · simp only [hz, if_false]
      have hpos : (0 : ℚ) < ((Ca + Ce : Nat) : ℚ) := by
        exact_mod_cast Nat.pos_of_ne_zero hz
      constructor
      · positivity
      · rw [div_le_one hpos]
        exact_mod_cast Nat.le_add_left Ce Ca
  refine ⟨rfl, habs a i ha0 ha1 hi0 hi1, ?_, ?_, ?_, hA, hI,
    habs _ _ hA.1 hA.2 hI.1 hI.2⟩
  · rw [computeDistance, abs_eq_zero, sub_eq_zero]
  · norm_num [computeDistance]
  · norm_num [computeDistance]

/-- Witness for `computeDistance_main_sequence` at a concrete module. -/
theorem computeDistance_main_sequence_witness :
    computeDistance 0 1 = |0 + 1 - 1| ∧
    (0 ≤ computeDistance 0 1 ∧ computeDistance 0 1 ≤ 1) ∧
    (computeDistance 0 1 = 0 ↔ (0 : ℚ) + 1 = 1) ∧
    computeDistance 0 0 = 1 ∧ computeDistance 1 1 = 1 ∧
    (0 ≤ computeAbstractness ⟨"a", [], [], [], [], 2, 2⟩ ∧
     computeAbstractness ⟨"a", [], [], [], [], 2, 2⟩ ≤ 1) ∧
    (0 ≤ computeInstability 1 3 ∧ computeInstability 1 3 ≤ 1) ∧
    (0 ≤ computeDistance (computeAbstractness ⟨"a", [], [], [], [], 2, 2⟩)
          (computeInstability 1 3) ∧
     computeDistance (computeAbstractness ⟨"a", [], [], [], [], 2, 2⟩)
          (computeInstability 1 3) ≤ 1) :=
  computeDistance_main_sequence ⟨"a", [], [], [], [], 2, 2⟩ rfl 1 3 0 1
    (by decide) (by decide) (by decide) (by decide)

/-- The keys of the node table, in insertion order. -/
def nodeKeys (g : DependencyGraph) : List String :=
  g.nodes.map (fun n => n.filePath)

/-- The edges the `DependencyGraph` constructor inserts, in insertion
order: one `(module, import)` pair per import of each module. -/
def edgePairs (ms : List ParsedModule) : List (String × String) :=
  ms.flatMap (fun m => m.imports.map (fun i => (m.filePath, i)))

/-- Folding `addEdge` over a list of edges. -/
def addEdges (g : DependencyGraph) (es : List (String × String)) :
    DependencyGraph :=
  es.foldl (fun g e => addEdge g e.1 e.2) g

/-- Folding `addNode` over a list of keys. -/
def addNodes (g : DependencyGraph) (ps : List String) : DependencyGraph :=
  ps.foldl addNode g

theorem getNode_isSome_iff (g : DependencyGraph) (p : String) :
    (g.getNode p).isSome ↔ p ∈ nodeKeys g := by
  rw [DependencyGraph.getNode, List.find?_isSome]
  simp only [nodeKeys, List.mem_map, decide_eq_true_eq]

theorem getNode_filePath {g : DependencyGraph} {p : String}
    {n : DependencyNode} (h : g.getNode p = some n) : n.filePath = p := by
  have := List.find?_some h
  simpa using this

theorem getNode_addNode (g : DependencyGraph) (p q : String) :
    (addNode g p).getNode q =
      (g.getNode q).or (if q = p then some ⟨p, [], []⟩ else none) := by
  unfold addNode
  by_cases hp : (g.getNode p).isSome
  · simp only [hp, if_true]
    cases hq : g.getNode q with
    | some n => simp
    | none =>
      by_cases hqp : q = p
      · subst hqp
        rw [hq] at hp
        simp at hp
      · simp [hqp]
  · simp only [hp, if_false]
    show ((⟨g.nodes ++ [⟨p, [], []⟩]⟩ : DependencyGraph).getNode q) = _
    unfold DependencyGraph.getNode
    rw [List.find?_append]
    rcases eq_or_ne q p with rfl | hqp
    · simp [DependencyGraph.getNode]
    · simp [DependencyGraph.getNode, Ne.symm hqp, hqp]

theorem getNode_updateNode (g : DependencyGraph) (p q : String)
    (f : DependencyNode → DependencyNode)
    (hf : ∀ n, (f n).filePath = n.filePath) :
    (updateNode g p f).getNode q =
      (g.getNode q).map (fun n => if n.filePath = p then f n else n) := by
  unfold updateNode DependencyGraph.getNode
  rw [List.find?_map]
  have hpred : ((fun n => decide (n.filePath = q)) ∘
      (fun n => if n.filePath = p then f n else n)) =
      (fun n : DependencyNode => decide (n.filePath = q)) := by
    funext n
    by_cases hnp : n.filePath = p <;> simp [hnp, hf]
  rw [hpred]

theorem mem_setAdd {s : List String} {x c : String} :
    c ∈ setAdd s x ↔ c ∈ s ∨ c = x := by
  unfold setAdd
  by_cases hx : x ∈ s
  · simp only [hx, if_true]
    constructor
    · exact Or.inl
    · rintro (h | rfl)
      · exact h
      · exact hx
  · simp [hx]

theorem getNode_updateDeps (g : DependencyGraph) (p q x : String) :
    (updateNode g p
        (fun n => { n with dependencies := setAdd n.dependencies x })).getNode q =
      (g.getNode q).map (fun n =>
        if n.filePath = p then { n with dependencies := setAdd n.dependencies x }
        else n) :=
  getNode_updateNode g p q _ (fun _ => rfl)

theorem getNode_updateDependents (g : DependencyGraph) (p q x : String) :
    (updateNode g p
        (fun n => { n with dependents := setAdd n.dependents x })).getNode q =
      (g.getNode q).map (fun n =>
        if n.filePath = p then { n with dependents := setAdd n.dependents x }
        else n) :=
  getNode_updateNode g p q _ (fun _ => rfl)

theorem mem_dependencies_addEdge (g : DependencyGraph) (a b q c : String) :
    (∃ n, (addEdge g a b).getNode q = some n ∧ c ∈ n.dependencies) ↔
      ((∃ n, g.getNode q = some n ∧ c ∈ n.dependencies) ∨ (q = a ∧ c = b)) := by
  unfold addEdge
  rw [getNode_updateDependents, getNode_updateDeps, getNode_addNode,
    getNode_addNode]
  cases hq : g.getNode q with
  | some n =>
    have hfp := getNode_filePath hq
    by_cases hqa : q = a <;> by_cases hqb : q = b <;>
      simp_all [mem_setAdd]
  | none =>
    by_cases hqa : q = a <;> by_cases hqb : q = b <;>
      simp_all [mem_setAdd]

theorem mem_dependents_addEdge (g : DependencyGraph) (a b q c : String) :
    (∃ n, (addEdge g a b).getNode q = some n ∧ c ∈ n.dependents) ↔
      ((∃ n, g.getNode q = some n ∧ c ∈ n.dependents) ∨ (q = b ∧ c = a)) := by
  unfold addEdge
  rw [getNode_updateDependents, getNode_updateDeps, getNode_addNode,
    getNode_addNode]
  cases hq : g.getNode q with
  | some n =>
    have hfp := getNode_filePath hq
    by_cases hqa : q = a <;> by_cases hqb : q = b <;>
      simp_all [mem_setAdd]
  | none =>
    by_cases hqa : q = a <;> by_cases hqb : q = b <;>
      simp_all [mem_setAdd]

theorem getNode_isSome_addEdge (g : DependencyGraph) (a b q : String) :
    ((addEdge g a b).getNode q).isSome ↔
      (g.getNode q).isSome ∨ q = a ∨ q = b := by
  unfold addEdge
  rw [getNode_updateDependents, getNode_updateDeps, getNode_addNode,
    getNode_addNode]
  cases hq : g.getNode q with
  | some n => simp
  | none =>
    by_cases hqa : q = a <;> by_cases hqb : q = b <;> simp [hqa, hqb]

theorem mem_dependencies_addEdges (es : List (String × String)) :
    ∀ (g : DependencyGraph) (q c : String),
      (∃ n, (addEdges g es).getNode q = some n ∧ c ∈ n.dependencies) ↔
        ((∃ n, g.getNode q = some n ∧ c ∈ n.dependencies) ∨ (q, c) ∈ es) := by
  induction es with
  | nil => simp [addEdges]
  | cons e t ih =>
    intro g q c
    show (∃ n, (addEdges (addEdge g e.1 e.2) t).getNode q = some n ∧ _) ↔ _
    rw [ih, mem_dependencies_addEdge]
    constructor
    · rintro ((h | ⟨rfl, rfl⟩) | h)
      · exact Or.inl h
      · exact Or.inr (by simp)
      · exact Or.inr (List.mem_cons_of_mem _ h)
    · rintro (h | h)
      · exact Or.inl (Or.inl h)
      · rcases List.mem_cons.mp h with rfl | h
        · exact Or.inl (Or.inr ⟨rfl, rfl⟩)
        · exact Or.inr h

theorem mem_dependents_addEdges (es : List (String × String)) :
    ∀ (g : DependencyGraph) (q c : String),
      (∃ n, (addEdges g es).getNode q = some n ∧ c ∈ n.dependents) ↔
        ((∃ n, g.getNode q = some n ∧ c ∈ n.dependents) ∨ (c, q) ∈ es) := by
  induction es with
  | nil => simp [addEdges]
  | cons e t ih =>
    intro g q c
    show (∃ n, (addEdges (addEdge g e.1 e.2) t).getNode q = some n ∧ _) ↔ _
    rw [ih, mem_dependents_addEdge]
    constructor
    · rintro ((h | ⟨rfl, rfl⟩) | h)
      · exact Or.inl h
      · exact Or.inr (by simp)
      · exact Or.inr (List.mem_cons_of_mem _ h)
    · rintro (h | h)
      · exact Or.inl (Or.inl h)
      · rcases List.mem_cons.mp h with rfl | h
        · exact Or.inl (Or.inr ⟨rfl, rfl⟩)
        · exact Or.inr h

theorem getNode_isSome_addEdges (es : List (String × String)) :
    ∀ (g : DependencyGraph) (q : String),
      ((addEdges g es).getNode q).isSome ↔
        ((g.getNode q).isSome ∨ ∃ e ∈ es, q = e.1 ∨ q = e.2) := by
  induction es with
  | nil => simp [addEdges]
  | cons e t ih =>
    intro g q
    show ((addEdges (addEdge g e.1 e.2) t).getNode q).isSome ↔ _
    rw [ih, getNode_isSome_addEdge]
    simp only [List.mem_cons]
    constructor
    · rintro ((h | h | h) | ⟨e', he', h⟩)
      · exact Or.inl h
      · exact Or.inr ⟨e, Or.inl rfl, Or.inl h⟩
      · exact Or.inr ⟨e, Or.inl rfl, Or.inr h⟩
      · exact Or.inr ⟨e', Or.inr he', h⟩
    · rintro (h | ⟨e', (rfl | he'), h⟩)
      · exact Or.inl (Or.inl h)
      · exact Or.inl (Or.inr h)
      · exact Or.inr ⟨e', he', h⟩

theorem getNode_addNodes_isSome (ps : List String) :
    ∀ (g : DependencyGraph) (q : String),
      ((addNodes g ps).getNode q).isSome ↔ (g.getNode q).isSome ∨ q ∈ ps := by
  induction ps with
  | nil => simp [addNodes]
  | cons p t ih =>
    intro g q
    show ((addNodes (addNode g p) t).getNode q).isSome ↔ _
    rw [ih, getNode_addNode]
    by_cases hqp : q = p
    · subst hqp
      cases hq : g.getNode q <;> simp
    · cases hq : g.getNode q <;> simp [hqp]

theorem getNode_addNodes_fresh (ps : List String) :
    ∀ (g : DependencyGraph) (q : String) (n : DependencyNode),
      (addNodes g ps).getNode q = some n →
        g.getNode q = some n ∨ n = ⟨q, [], []⟩ := by
  induction ps with
  | nil => exact fun g q n h => Or.inl h
  | cons p t ih =>
    intro g q n h
    rcases ih (addNode g p) q n h with h' | h'
    · rw [getNode_addNode] at h'
      cases hq : g.getNode q with
      | some m =>
        rw [hq] at h'
        simp at h'
        exact Or.inl (congrArg some h')
      | none =>
        rw [hq] at h'
        simp only [Option.none_or] at h'
        by_cases hqp : q = p
        · rw [if_pos hqp] at h'
          cases h'
          exact Or.inr (by rw [hqp])
        · rw [if_neg hqp] at h'
          cases h'
    · exact Or.inr h'

theorem addEdges_append (g : DependencyGraph) (l l' : List (String × String)) :
    addEdges g (l ++ l') = addEdges (addEdges g l) l' := by
  simp [addEdges, List.foldl_append]

theorem addEdges_map_imports (g : DependencyGraph) (p : String)
    (l : List String) :
    addEdges g (l.map (fun i => (p, i))) =
      l.foldl (fun g i => addEdge g p i) g := by
  simp [addEdges, List.foldl_map]

theorem buildGraph_eq (ms : List ParsedModule) :
    buildGraph ms =
      addEdges (addNodes ⟨[]⟩ (ms.map (fun m => m.filePath))) (edgePairs ms) := by
  unfold buildGraph
  rw [addNodes, List.foldl_map]
  generalize (ms.foldl (fun g m => addNode g m.filePath) ⟨[]⟩) = g0
  induction ms generalizing g0 with
  | nil => simp [edgePairs, addEdges]
  | cons m t ih =>
    simp only [List.foldl_cons]
    rw [show edgePairs (m :: t) =
        m.imports.map (fun i => (m.filePath, i)) ++ edgePairs t by
      simp [edgePairs]]
    rw [addEdges_append, addEdges_map_imports, ih]

theorem mem_edgePairs (ms : List ParsedModule) (q c : String) :
    (q, c) ∈ edgePairs ms ↔ ∃ m ∈ ms, m.filePath = q ∧ c ∈ m.imports := by
  simp only [edgePairs, List.mem_flatMap, List.mem_map, Prod.mk.injEq]
  constructor
  · rintro ⟨m, hm, i, hi, rfl, rfl⟩
    exact ⟨m, hm, rfl, hi⟩
  · rintro ⟨m, hm, rfl, hc⟩
    exact ⟨m, hm, c, hc, rfl, rfl⟩

theorem buildGraph_dependencies (ms : List ParsedModule) (q c : String) :
    (∃ n, (buildGraph ms).getNode q = some n ∧ c ∈ n.dependencies) ↔
      ∃ m ∈ ms, m.filePath = q ∧ c ∈ m.imports := by
  rw [buildGraph_eq, mem_dependencies_addEdges, ← mem_edgePairs]
  constructor
  · rintro (⟨n, hn, hc⟩ | h)
    · rcases getNode_addNodes_fresh _ _ _ _ hn with h' | rfl
      · simp [DependencyGraph.getNode] at h'
      · cases hc
    · exact h
  · exact Or.inr

theorem buildGraph_dependents (ms : List ParsedModule) (q c : String) :
    (∃ n, (buildGraph ms).getNode q = some n ∧ c ∈ n.dependents) ↔
      ∃ m ∈ ms, m.filePath = c ∧ q ∈ m.imports := by
  rw [buildGraph_eq, mem_dependents_addEdges, ← mem_edgePairs]
  constructor
  · rintro (⟨n, hn, hc⟩ | h)
    · rcases getNode_addNodes_fresh _ _ _ _ hn with h' | rfl
      · simp [DependencyGraph.getNode] at h'
      · cases hc
    · exact h
  · exact Or.inr

/-- C5: edge symmetry in every constructed graph — `b` is in the dependency
set of `a` exactly when `a` is in the dependent set of `b`. -/
theorem buildGraph_edge_symmetry (ms : List ParsedModule) (a b : String) :
    ((∃ n, (buildGraph ms).getNode a = some n ∧ b ∈ n.dependencies) ↔
     (∃ n, (buildGraph ms).getNode b = some n ∧ a ∈ n.dependents)) := by
  rw [buildGraph_dependencies, buildGraph_dependents]

/-- C7: `getNode` answers `some` exactly for identifiers that occurred as a
module identifier or as an import target; a dangling import target (never
scanned as a module) still materializes as a node whose dependency set is
empty — construction is total and never fails on such references. -/
theorem buildGraph_getNode_total (ms : List ParsedModule) (s : String) :
    (((buildGraph ms).getNode s).isSome ↔
      (∃ m ∈ ms, m.filePath = s) ∨ (∃ m ∈ ms, s ∈ m.imports)) ∧
    ((∀ m ∈ ms, m.filePath ≠ s) →
      ∀ n, (buildGraph ms).getNode s = some n → n.dependencies = []) := by
  constructor
  · rw [buildGraph_eq, getNode_isSome_addEdges, getNode_addNodes_isSome]
    simp only [DependencyGraph.getNode, List.find?_nil, Option.isSome_none,
      Bool.false_eq_true, false_or, List.mem_map]
    constructor
    · rintro (⟨m, hm, rfl⟩ | ⟨e, he, rfl | rfl⟩)
      · exact Or.inl ⟨m, hm, rfl⟩
      · rcases (List.mem_flatMap.mp he) with ⟨m, hm, hi⟩
        rcases List.mem_map.mp hi with ⟨i, _, rfl⟩
        exact Or.inl ⟨m, hm, rfl⟩
      · rcases (List.mem_flatMap.mp he) with ⟨m, hm, hi⟩
        rcases List.mem_map.mp hi with ⟨i, hii, rfl⟩
        exact Or.inr ⟨m, hm, hii⟩
    · rintro (⟨m, hm, rfl⟩ | ⟨m, hm, hi⟩)
      · exact Or.inl ⟨m, hm, rfl⟩
      · exact Or.inr ⟨(m.filePath, s), List.mem_flatMap.mpr
          ⟨m, hm, List.mem_map.mpr ⟨s, hi, rfl⟩⟩, Or.inr rfl⟩
  · intro hnone n hn
    rw [List.eq_nil_iff_forall_not_mem]
    intro c hc
    rcases (buildGraph_dependencies ms s c).mp ⟨n, hn, hc⟩ with ⟨m, hm, hfp, _⟩
    exact hnone m hm hfp

theorem moduleMapGet_eq_find_last (ms : List ParsedModule) (p : String) :
    moduleMapGet ms p = ms.reverse.find? (fun m => m.filePath = p) := by
  induction ms using List.reverseRecOn with
  | nil => rfl
  | append_singleton l x ih =>
    rw [moduleMapGet, List.foldl_append, List.reverse_append]
    simp only [List.foldl_cons, List.foldl_nil, List.reverse_singleton,
      List.singleton_append, List.find?_cons]
    by_cases hx : x.filePath = p
    · simp [hx]
    · simp only [hx, if_false, decide_False]
      exact ih

/-- C8: duplicated module identifiers raise no error — the node's dependency
set is the union of the import lists of all occurrences, and the metrics
engine associates the node with the last occurrence's record (last write
wins) when computing abstractness. -/
theorem duplicate_modules_policy (ms : List ParsedModule)
    (cycles : List (List String)) (a b : String) :
    ((∃ n, (buildGraph ms).getNode a = some n ∧ b ∈ n.dependencies) ↔
      ∃ m ∈ ms, m.filePath = a ∧ b ∈ m.imports) ∧
    (∀ entry ∈ computeAllMetrics (buildGraph ms) ms cycles,
      entry.abstractness =
        match ms.reverse.find? (fun m => m.filePath = entry.filePath) with
        | some m => computeAbstractness m
        | none => 0) := by
  refine ⟨buildGraph_dependencies ms a b, ?_⟩
  intro entry hentry
  rcases List.mem_map.mp hentry with ⟨node, _, rfl⟩
  rw [← moduleMapGet_eq_find_last]

/-- `SerializableCycle` from `src/types/api.ts`. -/
structure SerializableCycle where
  id : String
  nodes : List String
  length : Nat
deriving DecidableEq, Repr

/-- `normalizeCycle` from `src/api/serialization.ts`. `hash` stands for the
external digest `s ↦ createHash('sha256').update(s).digest('hex').slice(0,16)`
from Node's `crypto` library (not part of this repository); the sort is
JavaScript's lexicographic `Array.sort()`. -/
def normalizeCycle (hash : String → String) (cycle : List String) :
    SerializableCycle :=
  if cycle.length = 0 then ⟨"", [], 0⟩
  else
    let sorted := cycle.insertionSort (fun a b => a ≤ b)
    let id := hash (String.intercalate "|" sorted)
    let minPath := sorted.headI
    let minIndex := cycle.indexOf minPath
    ⟨id, cycle.drop minIndex ++ cycle.take minIndex, cycle.length⟩

theorem insertionSort_rotate (cycle : List String) (k : Nat) :
    (cycle.rotate k).insertionSort (fun a b => a ≤ b) =
      cycle.insertionSort (fun a b => a ≤ b) := by
  apply List.eq_of_perm_of_sorted
    (r := fun a b : String => a ≤ b)
  · exact (List.perm_insertionSort _ _).trans
      ((cycle.rotate_perm k).trans (List.perm_insertionSort _ _).symm)
  · exact List.sorted_insertionSort _ _
  · exact List.sorted_insertionSort _ _

theorem sorted_headI_le {s : List String} (hs : s.Sorted (fun a b => a ≤ b))
    (hne : s ≠ []) : ∀ x ∈ s, s.headI ≤ x := by
  cases s with
  | nil => exact absurd rfl hne
  | cons h t =>
    rw [List.sorted_cons] at hs
    intro x hx
    rcases List.mem_cons.mp hx with rfl | hx
    · exact le_refl x
    · exact hs.1 x hx

/-- C9: `normalizeCycle` gives rotation-invariant ids (the id is a digest of
the sorted identifiers), and returns as `nodes` a rotation of the input that
starts at the lexicographically smallest identifier, of unchanged length. -/
theorem normalizeCycle_spec (hash : String → String) (cycle : List String)
    (k : Nat) (hne : cycle ≠ []) :
    (normalizeCycle hash (cycle.rotate k)).id = (normalizeCycle hash cycle).id ∧
    (∃ j, (normalizeCycle hash cycle).nodes = cycle.rotate j) ∧
    (∃ h, (normalizeCycle hash cycle).nodes.head? = some h ∧
      ∀ x ∈ cycle, h ≤ x) ∧
    (normalizeCycle hash cycle).nodes.length = cycle.length ∧
    (normalizeCycle hash cycle).length = cycle.length := by
  have hlen : cycle.length ≠ 0 := fun h => hne (List.length_eq_zero.mp h)
  have hrlen : (cycle.rotate k).length ≠ 0 := by
    rw [List.length_rotate]
    exact hlen
  have hperm := List.perm_insertionSort (fun a b : String => a ≤ b) cycle
  have hsortne : cycle.insertionSort (fun a b => a ≤ b) ≠ [] := by
    intro h
    rw [h] at hperm
    exact hne hperm.symm.eq_nil
  have hmem : (cycle.insertionSort (fun a b => a ≤ b)).headI ∈ cycle := by
    apply hperm.mem_iff.mp
    cases hs : cycle.insertionSort (fun a b => a ≤ b) with
    | nil => exact absurd hs hsortne
    | cons h t => simp [List.headI]
  have hidx : cycle.indexOf (cycle.insertionSort (fun a b => a ≤ b)).headI
      < cycle.length := List.indexOf_lt_length.mpr hmem
  rw [normalizeCycle, normalizeCycle, if_neg hrlen, if_neg hlen]
  refine ⟨?_, ?_, ?_, ?_, rfl⟩
  · simp only [insertionSort_rotate]
  · exact ⟨_, (List.rotate_eq_drop_append_take List.indexOf_le_length).symm⟩
  · refine ⟨(cycle.insertionSort (fun a b => a ≤ b)).headI, ?_, ?_⟩
    · show ((cycle.drop _ ++ cycle.take _).head? = _)
      rw [List.drop_eq_getElem_cons hidx]
      simp only [List.cons_append, List.head?_cons]
      rw [List.getElem_indexOf]
    · intro x hx
      exact sorted_headI_le (List.sorted_insertionSort _ _) hsortne _
        (hperm.mem_iff.mpr hx)
  · show (cycle.drop _ ++ cycle.take _).length = cycle.length
    rw [List.length_append, List.length_drop, List.length_take]
    omega

/-- Witness for `normalizeCycle_spec` on the concrete cycle `["b", "a"]`. -/
theorem normalizeCycle_spec_witness :
    (normalizeCycle (fun s => s) (["b", "a"].rotate 1)).id =
      (normalizeCycle (fun s => s) ["b", "a"]).id ∧
    (∃ j, (normalizeCycle (fun s => s) ["b", "a"]).nodes =
      ["b", "a"].rotate j) ∧
    (∃ h, (normalizeCycle (fun s => s) ["b", "a"]).nodes.head? = some h ∧
      ∀ x ∈ ["b", "a"], h ≤ x) ∧
    (normalizeCycle (fun s => s) ["b", "a"]).nodes.length =
      (["b", "a"] : List String).length ∧
    (normalizeCycle (fun s => s) ["b", "a"]).length =
      (["b", "a"] : List String).length :=
  normalizeCycle_spec (fun s => s) ["b", "a"] 1 (by decide)

/-- JS `Map<string, number>` lookup (`indices.get` / `lowLinks.get`). -/
def mget (m : List (String × Nat)) (k : String) : Option Nat :=
  (m.find? (fun e => e.1 = k)).map (fun e => e.2)

/-- JS `Map<string, number>.set`: overwrite the key in place, else append. -/
def mset : List (String × Nat) → String → Nat → List (String × Nat)
  | [], k, v => [(k, v)]
  | e :: t, k, v => if e.1 = k then (k, v) :: t else e :: mset t k v

theorem mget_mset_self (m : List (String × Nat)) (k : String) (v : Nat) :
    mget (mset m k v) k = some v := by
  induction m with
  | nil => simp [mget, mset]
  | cons e t ih =>
    rw [mset]
    by_cases he : e.1 = k
    · simp [mget, he]
    · rw [if_neg he, mget, List.find?_cons_of_neg _ (by simpa using he)]
      exact ih

theorem mget_mset_ne (m : List (String × Nat)) (k : String) (v : Nat)
    (k' : String) (h : k' ≠ k) : mget (mset m k v) k' = mget m k' := by
  induction m with
  | nil => simp [mget, mset, h, Ne.symm h]
  | cons e t ih =>
    rw [mset]
    by_cases he : e.1 = k
    · rw [if_pos he, mget, mget,
        List.find?_cons_of_neg _ (by simpa using Ne.symm h),
        List.find?_cons_of_neg _ (by simp [he, Ne.symm h])]
    · rw [if_neg he, mget, mget]
      by_cases he' : e.1 = k'
      · rw [List.find?_cons_of_pos _ (by simpa using he'),
          List.find?_cons_of_pos _ (by simpa using he')]
      · rw [List.find?_cons_of_neg _ (by simpa using he'),
          List.find?_cons_of_neg _ (by simpa using he')]
        exact ih

theorem isSome_mget_mset (m : List (String × Nat)) (k : String) (v : Nat)
    (k' : String) (h : (mget m k').isSome = true) :
    (mget (mset m k v) k').isSome = true := by
  by_cases hk : k' = k
  · subst hk
    rw [mget_mset_self]
    rfl
  · rw [mget_mset_ne m k v k' hk]
    exact h

/-- `TarjanState` from the cycle detector (`src/graph/cycleDetector.ts`);
the stack's head is the top (the push/pop end of the JS array). -/
structure TarjanState where
  index : Nat
  stack : List String
  indices : List (String × Nat)
  lowLinks : List (String × Nat)
  onStack : List String
  components : List (List String)
deriving DecidableEq, Repr

/-- The do/while loop closing a component: pop the stack down to and
including `v`; returns the popped elements in pop order and the rest. -/
def popComponent : List String → String → List String × List String
  | [], _ => ([], [])
  | w :: rest, v =>
    if w = v then ([w], rest)
    else
      let p := popComponent rest v
      (w :: p.1, p.2)

/-- Closing step of `strongConnect`: when `v` is a root
(`lowLink = index`), pop its component and emit it when it has 2 or more
nodes. -/
def closeComponent (v : String) (st : TarjanState) : TarjanState :=
  if mget st.lowLinks v = mget st.indices v then
    let p := popComponent st.stack v
    { st with
      stack := p.2
      onStack := st.onStack.filter (fun w => ¬ w ∈ p.1)
      components :=
        if 1 < p.1.length then st.components ++ [p.1] else st.components }
  else st

theorem closeComponent_indices (v : String) (st : TarjanState) :
    (closeComponent v st).indices = st.indices := by
  unfold closeComponent
  split <;> rfl

theorem closeComponent_index (v : String) (st : TarjanState) :
    (closeComponent v st).index = st.index := by
  unfold closeComponent
  split <;> rfl

theorem closeComponent_lowLinks (v : String) (st : TarjanState) :
    (closeComponent v st).lowLinks = st.lowLinks := by
  unfold closeComponent
  split <;> rfl

/-- Monotone growth of the key set of an `indices` map. -/
def IndicesMono (m m' : List (String × Nat)) : Prop :=
  ∀ k, (mget m k).isSome = true → (mget m' k).isSome = true

/-- Count of graph keys not yet indexed (the termination measure of the
depth-first search). -/
def unindexedCount (g : DependencyGraph) (m : List (String × Nat)) : Nat :=
  ((nodeKeys g).filter (fun k => (mget m k).isNone)).length

theorem length_filter_mono {l : List String} {p q : String → Bool}
    (h : ∀ x ∈ l, p x = true → q x = true) :
    (l.filter p).length ≤ (l.filter q).length := by
  induction l with
  | nil => simp
  | cons x t ih =>
    have iht := ih (fun y hy => h y (List.mem_cons_of_mem x hy))
    rw [List.filter_cons, List.filter_cons]
    by_cases hp : p x = true
    · rw [if_pos hp, if_pos (h x (List.mem_cons_self x t) hp)]
      simpa using iht
    · rw [if_neg hp]
      by_cases hq : q x = true
      · rw [if_pos hq]
        exact le_trans iht (Nat.le_succ _)
      · rw [if_neg hq]
        exact iht

theorem length_filter_lt {l : List String} {p q : String → Bool}
    (h : ∀ x ∈ l, q x = true → p x = true) {v : String} (hv : v ∈ l)
    (hp : p v = true) (hq : q v = false) :
    (l.filter q).length < (l.filter p).length := by
  induction l with
  | nil => cases hv
  | cons x t ih =>
    rw [List.filter_cons, List.filter_cons]
    rcases List.mem_cons.mp hv with rfl | hvt
    · rw [if_pos hp, if_neg (by simp [hq])]
      have := length_filter_mono (l := t) (p := q) (q := p)
        (fun y hy => h y (List.mem_cons_of_mem _ hy))
      simpa using Nat.lt_succ_of_le this
    · have iht := ih (fun y hy => h y (List.mem_cons_of_mem x hy)) hvt
      by_cases hqx : q x = true
      · rw [if_pos hqx, if_pos (h x (List.mem_cons_self x t) hqx)]
        simpa using iht
      · rw [if_neg hqx]
        by_cases hpx : p x = true
        · rw [if_pos hpx]
          exact lt_trans iht (Nat.lt_succ_self _)
        · rw [if_neg hpx]
          exact iht

theorem unindexedCount_le (g : DependencyGraph)
    {m m' : List (String × Nat)} (h : IndicesMono m m') :
    unindexedCount g m' ≤ unindexedCount g m := by
  apply length_filter_mono
  intro x _ hx
  simp only [Option.isNone_iff_eq_none] at hx ⊢
  by_contra hne
  exact Option.isSome_iff_ne_none.mp
    (h x (Option.ne_none_iff_isSome.mp hne)) hx

theorem unindexedCount_lt (g : DependencyGraph) {m : List (String × Nat)}
    {v : String} (i : Nat) (hv : v ∈ nodeKeys g) (hnone : mget m v = none) :
    unindexedCount g (mset m v i) < unindexedCount g m := by
  apply length_filter_lt (v := v) _ hv
  · rw [Option.isNone_iff_eq_none]
    exact hnone
  · rw [Bool.eq_false_iff]
    intro hnone'
    rw [Option.isNone_iff_eq_none, mget_mset_self] at hnone'
    cases hnone'
  · intro x _ hx
    by_cases hxv : x = v
    · subst hxv
      rw [Option.isNone_iff_eq_none, mget_mset_self] at hx
      cases hx
    · rwa [Option.isNone_iff_eq_none, mget_mset_ne m v i x hxv,
        ← Option.isNone_iff_eq_none] at hx

mutual

/-- `strongConnect` from the cycle detector: index `v`, push it, visit its
dependencies, then close the component if `v` is a root. The precondition
mirrors the call discipline of the source (`strongConnect` is only invoked
on nodes without an index); the result carries the fact that the set of
indexed keys only grows, which bounds the recursion. -/
def strongConnect (g : DependencyGraph) (v : String) (st : TarjanState)
    (hv : mget st.indices v = none) :
    { st' : TarjanState // IndicesMono st.indices st'.indices } :=
  let st1 : TarjanState :=
    { index := st.index + 1
      stack := v :: st.stack
      indices := mset st.indices v st.index
      lowLinks := mset st.lowLinks v st.index
      onStack := setAdd st.onStack v
      components := st.components }
  match hg : g.getNode v with
  | some node =>
    let r2 := visitDeps g v node.dependencies st1
    ⟨closeComponent v r2.1, fun k hk => by
      rw [closeComponent_indices]
      exact r2.2 k (isSome_mget_mset st.indices v st.index k hk)⟩
  | none =>
    ⟨closeComponent v st1, fun k hk => by
      rw [closeComponent_indices]
      exact isSome_mget_mset st.indices v st.index k hk⟩
termination_by (unindexedCount g st.indices, 0, 0)
decreasing_by
  exact Prod.Lex.left _ _
    (unindexedCount_lt g st.index ((getNode_isSome_iff g v).mp
      (by rw [hg]; rfl)) hv)

/-- The `for (const dependency of graphNode.dependencies)` loop body of
`strongConnect`: recurse into unvisited dependencies and fold low-links
(`lowLinks.get(...)!` is modelled with default `0`; the value is always
present in reachable states). -/
def visitDeps (g : DependencyGraph) (v : String) (deps : List String)
    (st : TarjanState) :
    { st' : TarjanState // IndicesMono st.indices st'.indices } :=
  match deps with
  | [] => ⟨st, fun _ hk => hk⟩
  | d :: ds =>
    if hd : mget st.indices d = none then
      let r := strongConnect g d st hd
      let stB : TarjanState :=
        { r.1 with
          lowLinks := mset r.1.lowLinks v
            (min ((mget r.1.lowLinks v).getD 0) ((mget r.1.lowLinks d).getD 0)) }
      let r2 := visitDeps g v ds stB
      ⟨r2.1, fun k hk => r2.2 k (r.2 k hk)⟩
    else if d ∈ st.onStack then
      let stB : TarjanState :=
        { st with
          lowLinks := mset st.lowLinks v
            (min ((mget st.lowLinks v).getD 0) ((mget st.indices d).getD 0)) }
      let r2 := visitDeps g v ds stB
      ⟨r2.1, r2.2⟩
    else
      visitDeps g v ds st
termination_by (unindexedCount g st.indices, 1, deps.length)
decreasing_by
  all_goals simp_wf
  · exact Prod.Lex.right _ (Prod.Lex.left _ _ (by omega))
  · have hle : unindexedCount g (r.1).indices ≤ unindexedCount g st.indices :=
      unindexedCount_le g r.2
    rcases lt_or_eq_of_le hle with hlt | heq
    · exact Prod.Lex.left _ _ hlt
    · rw [heq]
      exact Prod.Lex.right _ (Prod.Lex.right _ (by omega))
  · exact Prod.Lex.right _ (Prod.Lex.right _ (by omega))
  · exact Prod.Lex.right _ (Prod.Lex.right _ (by omega))

end

/-- The fresh state `detectCycles` starts from. -/
def initialTarjanState : TarjanState :=
  { index := 0, stack := [], indices := [], lowLinks := [], onStack := [],
    components := [] }

/-- The root loop of `detectCycles`, made explicit in the order it visits
the roots. -/
def detectCyclesFrom (g : DependencyGraph) (roots : List String) :
    TarjanState :=
  roots.foldl
    (fun st r =>
      if h : mget st.indices r = none then (strongConnect g r st h).1 else st)
    initialTarjanState

/-- `detectCycles` from the cycle detector: run `strongConnect` from every
not-yet-indexed node, in `getAllNodes` order, and return the collected
components. -/
def detectCycles (g : DependencyGraph) : List (List String) :=
  (detectCyclesFrom g (g.getAllNodes.map (fun n => n.filePath))).components

/-- First occurrences of the elements of a list that are not in `seen`,
in walk order. -/
def firstOcc (seen : List String) : List String → List String
  | [] => []
  | x :: t => if x ∈ seen then firstOcc seen t else x :: firstOcc (seen ++ [x]) t

/-- The enumeration order claimed for `getAllNodes`: first every scanned
module's identifier in input-list order, then every identifier that appears
only as an import target, in the order of its first occurrence while
walking the modules and their import lists in input order. -/
def specInsertionOrder (ms : List ParsedModule) : List String :=
  firstOcc [] (ms.map (fun m => m.filePath)) ++
    firstOcc (firstOcc [] (ms.map (fun m => m.filePath)))
      (ms.flatMap (fun m => m.imports))

theorem foldl_setAdd_eq_firstOcc (l : List String) :
    ∀ acc, l.foldl setAdd acc = acc ++ firstOcc acc l := by
  induction l with
  | nil => simp [firstOcc]
  | cons x t ih =>
    intro acc
    rw [List.foldl_cons, firstOcc]
    by_cases hx : x ∈ acc
    · rw [if_pos hx, show setAdd acc x = acc from if_pos hx]
      exact ih acc
    · rw [if_neg hx, show setAdd acc x = acc ++ [x] from if_neg hx, ih]
      simp

theorem mem_firstOcc (x : String) (l : List String) :
    ∀ seen, x ∈ firstOcc seen l ↔ x ∈ l ∧ x ∉ seen := by
  induction l with
  | nil => simp [firstOcc]
  | cons y t ih =>
    intro seen
    rw [firstOcc]
    by_cases hy : y ∈ seen
    · rw [if_pos hy, ih]
      constructor
      · rintro ⟨hx, hns⟩
        exact ⟨List.mem_cons_of_mem _ hx, hns⟩
      · rintro ⟨hx, hns⟩
        rcases List.mem_cons.mp hx with rfl | hx
        · exact absurd hy hns
        · exact ⟨hx, hns⟩
    · rw [if_neg hy]
      constructor
      · intro hx
        rcases List.mem_cons.mp hx with rfl | hx
        · exact ⟨List.mem_cons_self _ _, hy⟩
        · rcases (ih _).mp hx with ⟨hxt, hns⟩
          simp only [List.mem_append, List.mem_singleton] at hns
          push_neg at hns
          exact ⟨List.mem_cons_of_mem _ hxt, hns.1⟩
      · rintro ⟨hx, hns⟩
        rcases List.mem_cons.mp hx with rfl | hx
        · exact List.mem_cons_self _ _
        · by_cases hxy : x = y
          · subst hxy
            exact List.mem_cons_self _ _
          · exact List.mem_cons_of_mem _ ((ih _).mpr
              ⟨hx, by simp [hns, hxy]⟩)

theorem nodeKeys_addNode (g : DependencyGraph) (p : String) :
    nodeKeys (addNode g p) = setAdd (nodeKeys g) p := by
  unfold addNode setAdd
  by_cases hp : (g.getNode p).isSome
  · rw [if_pos hp, if_pos ((getNode_isSome_iff g p).mp hp)]
  · rw [if_neg hp, if_neg (fun hmem => hp ((getNode_isSome_iff g p).mpr hmem))]
    simp [nodeKeys]

theorem nodeKeys_updateNode (g : DependencyGraph) (p : String)
    (f : DependencyNode → DependencyNode)
    (hf : ∀ n, (f n).filePath = n.filePath) :
    nodeKeys (updateNode g p f) = nodeKeys g := by
  unfold updateNode nodeKeys
  rw [List.map_map]
  apply List.map_congr_left
  intro n _
  by_cases hn : n.filePath = p <;> simp [hn, hf]

theorem nodeKeys_addEdge (g : DependencyGraph) (a b : String) :
    nodeKeys (addEdge g a b) = setAdd (setAdd (nodeKeys g) a) b := by
  unfold addEdge
  rw [nodeKeys_updateNode
      (f := fun n => { n with dependents := setAdd n.dependents a })
      _ _ (fun _ => rfl),
    nodeKeys_updateNode
      (f := fun n => { n with dependencies := setAdd n.dependencies b })
      _ _ (fun _ => rfl),
    nodeKeys_addNode, nodeKeys_addNode]

theorem nodeKeys_addEdges (es : List (String × String)) :
    ∀ g, nodeKeys (addEdges g es) =
      es.foldl (fun ks e => setAdd (setAdd ks e.1) e.2) (nodeKeys g) := by
  induction es with
  | nil => simp [addEdges]
  | cons e t ih =>
    intro g
    show nodeKeys (addEdges (addEdge g e.1 e.2) t) = _
    rw [ih, nodeKeys_addEdge]
    rfl

theorem nodeKeys_addNodes (ps : List String) :
    ∀ g, nodeKeys (addNodes g ps) = ps.foldl setAdd (nodeKeys g) := by
  induction ps with
  | nil => simp [addNodes]
  | cons p t ih =>
    intro g
    show nodeKeys (addNodes (addNode g p) t) = _
    rw [ih, nodeKeys_addNode]
    rfl

theorem foldl_pairs_of_fst_mem (es : List (String × String)) :
    ∀ ks, (∀ e ∈ es, e.1 ∈ ks) →
      es.foldl (fun ks e => setAdd (setAdd ks e.1) e.2) ks =
        (es.map (fun e => e.2)).foldl setAdd ks := by
  induction es with
  | nil => simp
  | cons e t ih =>
    intro ks h
    rw [List.foldl_cons, List.map_cons, List.foldl_cons,
      show setAdd ks e.1 = ks from if_pos (h e (List.mem_cons_self _ _))]
    apply ih
    intro e' he'
    unfold setAdd
    split
    · exact h e' (List.mem_cons_of_mem _ he')
    · exact List.mem_append_left _ (h e' (List.mem_cons_of_mem _ he'))

theorem map_snd_edgePairs (ms : List ParsedModule) :
    (edgePairs ms).map (fun e => e.2) = ms.flatMap (fun m => m.imports) := by
  unfold edgePairs
  rw [List.map_flatMap]
  simp [List.map_map]

theorem fst_edgePairs_mem (ms : List ParsedModule) (e : String × String)
    (he : e ∈ edgePairs ms) :
    e.1 ∈ firstOcc [] (ms.map (fun m => m.filePath)) := by
  rw [mem_firstOcc]
  refine ⟨?_, by simp⟩
  rcases List.mem_flatMap.mp he with ⟨m, hm, hi⟩
  rcases List.mem_map.mp hi with ⟨i, _, rfl⟩
  exact List.mem_map.mpr ⟨m, hm, rfl⟩

/-- C10: `getAllNodes` enumerates keys in the claimed insertion order —
all scanned modules in input order, then import-only identifiers by first
occurrence — and `detectCycles` visits its roots in exactly that order, so
the cycle list is a deterministic function of the input list. -/
theorem getAllNodes_insertion_order (ms : List ParsedModule) :
    (buildGraph ms).getAllNodes.map (fun n => n.filePath) =
      specInsertionOrder ms ∧
    detectCycles (buildGraph ms) =
      (detectCyclesFrom (buildGraph ms) (specInsertionOrder ms)).components := by
  have hkeys : nodeKeys (buildGraph ms) = specInsertionOrder ms := by
    rw [buildGraph_eq, nodeKeys_addEdges, nodeKeys_addNodes]
    have hbase : nodeKeys (⟨[]⟩ : DependencyGraph) = [] := rfl
    rw [hbase, foldl_setAdd_eq_firstOcc, List.nil_append,
      foldl_pairs_of_fst_mem _ _ (fun e he => fst_edgePairs_mem ms e he),
      map_snd_edgePairs, foldl_setAdd_eq_firstOcc]
    rfl
  refine ⟨hkeys, ?_⟩
  rw [detectCycles]
  show (detectCyclesFrom _ (nodeKeys (buildGraph ms))).components = _
  rw [hkeys]

/-- The edge relation of a dependency graph. -/
def Edge (g : DependencyGraph) (a b : String) : Prop :=
  ∃ n, g.getNode a = some n ∧ b ∈ n.dependencies

/-- Reachability along dependency edges. -/
def Reach (g : DependencyGraph) : String → String → Prop :=
  Relation.ReflTransGen (Edge g)

/-- Mutual reachability: `a` and `b` lie in the same strongly connected
component. -/
def SameSCC (g : DependencyGraph) (a b : String) : Prop :=
  Reach g a b ∧ Reach g b a

/-- Every edge target is itself a node of the graph (true of every graph
the constructor builds). -/
def ClosedGraph (g : DependencyGraph) : Prop :=
  ∀ a b, Edge g a b → b ∈ nodeKeys g

/-- `v` has been assigned a discovery index. -/
def vis (st : TarjanState) (v : String) : Prop :=
  (mget st.indices v).isSome = true

/-- Discovery index of a visited node (default `0`). -/
def iN (st : TarjanState) (v : String) : Nat :=
  (mget st.indices v).getD 0

/-- Current low-link of a node (default `0`). -/
def lN (st : TarjanState) (v : String) : Nat :=
  (mget st.lowLinks v).getD 0

theorem buildGraph_closed (ms : List ParsedModule) :
    ClosedGraph (buildGraph ms) := by
  intro a b hab
  rcases (buildGraph_dependencies ms a b).mp hab with ⟨m, hm, _, hb⟩
  rw [← getNode_isSome_iff]
  exact ((buildGraph_getNode_total ms b).1).mpr (Or.inr ⟨m, hm, hb⟩)

theorem sameSCC_trans {g : DependencyGraph} {a b c : String}
    (h1 : SameSCC g a b) (h2 : SameSCC g b c) : SameSCC g a c :=
  ⟨h1.1.trans h2.1, h2.2.trans h1.2⟩

theorem sameSCC_symm {g : DependencyGraph} {a b : String}
    (h : SameSCC g a b) : SameSCC g b a := ⟨h.2, h.1⟩

theorem sameSCC_refl (g : DependencyGraph) (a : String) : SameSCC g a a :=
  ⟨Relation.ReflTransGen.refl, Relation.ReflTransGen.refl⟩

/-- The global Tarjan invariant, parametrized by the ghost list `grays` of
nodes whose `strongConnect` call is still running (innermost first). -/
structure WF (g : DependencyGraph) (grays : List String)
    (st : TarjanState) : Prop where
  onStack_iff : ∀ v, v ∈ st.onStack ↔ v ∈ st.stack
  stack_nodup : st.stack.Nodup
  stack_vis : ∀ v ∈ st.stack, vis st v
  vis_keys : ∀ v, vis st v → v ∈ nodeKeys g
  idx_lt : ∀ v, vis st v → iN st v < st.index
  idx_inj : ∀ u v, vis st u → vis st v → iN st u = iN st v → u = v
  stack_sorted : st.stack.Pairwise (fun a b => iN st b < iN st a)
  grays_sub : ∀ u ∈ grays, u ∈ st.stack
  grays_sorted : grays.Pairwise (fun a b => iN st b < iN st a)
  blacks_explored : ∀ u, vis st u → u ∉ grays → ∀ w, Edge g u w → vis st w
  done_closed : ∀ u, vis st u → u ∉ st.stack → ∀ w, Edge g u w →
    vis st w ∧ w ∉ st.stack
  stack_reach : ∀ u ∈ st.stack, ∀ w ∈ st.stack, iN st u ≤ iN st w →
    Reach g u w
  stack_gray : ∀ b ∈ st.stack, ∃ u ∈ grays, iN st u ≤ iN st b ∧ Reach g b u
  low_stack : ∀ u ∈ st.stack, lN st u ≤ iN st u ∧
    ∃ w ∈ st.stack, iN st w = lN st u ∧ Reach g u w
  low_some : ∀ u ∈ st.stack, (mget st.lowLinks u).isSome = true
  comps_scc : ∀ c ∈ st.components, c.Nodup ∧ 2 ≤ c.length ∧
    (∀ a ∈ c, (vis st a ∧ a ∉ st.stack) ∧ ∀ b, (b ∈ c ↔ SameSCC g a b))
  comps_complete : ∀ u, vis st u → u ∉ st.stack →
    (∃ w, w ≠ u ∧ SameSCC g u w) → ∃ c ∈ st.components, u ∈ c
  comps_disjoint : st.components.Pairwise (fun c d => ∀ x ∈ c, x ∉ d)

theorem WF.stack_empty_of_no_grays {g : DependencyGraph}
    {st : TarjanState} (h : WF g [] st) : st.stack = [] := by
  rcases hs : st.stack with _ | ⟨b, t⟩
  · rfl
  · rcases h.stack_gray b (by rw [hs]; exact List.mem_cons_self _ _) with
      ⟨u, hu, _⟩
    cases hu

/-- Precondition of `strongConnect g v st`: the invariant holds, `v` is an
unvisited key, and `v` is entered either from the top-level loop (no grays,
empty stack) or through an edge from the innermost gray. -/
def SCPre (g : DependencyGraph) (grays : List String) (v : String)
    (st : TarjanState) : Prop :=
  WF g grays st ∧ v ∈ nodeKeys g ∧ ¬vis st v ∧
    ((grays = [] ∧ st.stack = []) ∨ (∃ p, grays.head? = some p ∧ Edge g p v))

/-- Postcondition of `strongConnect g v st` relating the pre-state `st` to
the post-state `st'`. -/
structure SCPost (g : DependencyGraph) (grays : List String) (v : String)
    (st st' : TarjanState) : Prop where
  wf : WF g grays st'
  vis_v : vis st' v
  idx_v : iN st' v = st.index
  mono_vis : ∀ u, vis st u → vis st' u
  idx_pres : ∀ u, vis st u → mget st'.indices u = mget st.indices u
  low_pres : ∀ u, vis st u → mget st'.lowLinks u = mget st.lowLinks u
  new_idx_ge : ∀ u, vis st' u → ¬vis st u → st.index ≤ iN st' u
  index_le : st.index < st'.index
  stack_split : ∃ S2, st'.stack = S2 ++ st.stack ∧ ∀ b ∈ S2, ¬vis st b
  root_done : v ∉ st'.stack → lN st' v = iN st' v
  low_bound : ∀ u ∈ st.stack,
    (∃ x, vis st' x ∧ ¬vis st x ∧ Edge g x u) → lN st' v ≤ iN st u
  comps_mono : ∃ cs, st'.components = st.components ++ cs

/-- Precondition of `visitDeps g v deps st`: `v` is the innermost gray and
`deps` is a sub-collection of its dependency list. -/
def VDPre (g : DependencyGraph) (grays : List String) (v : String)
    (deps : List String) (st : TarjanState) : Prop :=
  WF g (v :: grays) st ∧ (∀ d ∈ deps, Edge g v d)

/-- Postcondition of `visitDeps g v deps st`. -/
structure VDPost (g : DependencyGraph) (grays : List String) (v : String)
    (deps : List String) (st st' : TarjanState) : Prop where
  wf : WF g (v :: grays) st'
  mono_vis : ∀ u, vis st u → vis st' u
  idx_pres : ∀ u, vis st u → mget st'.indices u = mget st.indices u
  low_pres : ∀ u, vis st u → u ≠ v → mget st'.lowLinks u = mget st.lowLinks u
  new_idx_ge : ∀ u, vis st' u → ¬vis st u → st.index ≤ iN st' u
  index_mono : st.index ≤ st'.index
  stack_split : ∃ S2, st'.stack = S2 ++ st.stack ∧ ∀ b ∈ S2, ¬vis st b
  low_v_mono : lN st' v ≤ lN st v
  low_bound : ∀ u ∈ st.stack,
    ((∃ x, vis st' x ∧ ¬vis st x ∧ Edge g x u) ∨ (u ∈ deps ∧ vis st u)) →
      lN st' v ≤ iN st' u
  deps_vis : ∀ d ∈ deps, vis st' d
  comps_mono : ∃ cs, st'.components = st.components ++ cs

/-- The state after the entry bookkeeping of `strongConnect v`. -/
def pushState (v : String) (st : TarjanState) : TarjanState :=
  { index := st.index + 1
    stack := v :: st.stack
    indices := mset st.indices v st.index
    lowLinks := mset st.lowLinks v st.index
    onStack := setAdd st.onStack v
    components := st.components }

theorem vis_pushState (v : String) (st : TarjanState) (u : String) :
    vis (pushState v st) u ↔ (vis st u ∨ u = v) := by
  unfold vis pushState
  by_cases huv : u = v
  · subst huv
    simp [mget_mset_self]
  · rw [mget_mset_ne st.indices v st.index u huv]
    simp [huv]

theorem vis_pushState_self (v : String) (st : TarjanState) :
    vis (pushState v st) v := (vis_pushState v st v).mpr (Or.inr rfl)

theorem iN_pushState_self (v : String) (st : TarjanState) :
    iN (pushState v st) v = st.index := by
  unfold iN pushState
  rw [mget_mset_self]
  rfl

theorem lN_pushState_self (v : String) (st : TarjanState) :
    lN (pushState v st) v = st.index := by
  unfold lN pushState
  rw [mget_mset_self]
  rfl

theorem idx_pushState_ne (v : String) (st : TarjanState) (u : String)
    (h : u ≠ v) : mget (pushState v st).indices u = mget st.indices u :=
  mget_mset_ne st.indices v st.index u h

theorem iN_pushState_ne (v : String) (st : TarjanState) (u : String)
    (h : u ≠ v) : iN (pushState v st) u = iN st u := by
  unfold iN
  rw [idx_pushState_ne v st u h]

theorem low_pushState_ne (v : String) (st : TarjanState) (u : String)
    (h : u ≠ v) : mget (pushState v st).lowLinks u = mget st.lowLinks u :=
  mget_mset_ne st.lowLinks v st.index u h

theorem lN_pushState_ne (v : String) (st : TarjanState) (u : String)
    (h : u ≠ v) : lN (pushState v st) u = lN st u := by
  unfold lN
  rw [low_pushState_ne v st u h]

theorem vis_ne_of_fresh {st : TarjanState} {v u : String}
    (hfresh : ¬vis st v) (hu : vis st u) : u ≠ v := by
  intro h
  exact hfresh (h ▸ hu)

theorem edge_reach {g : DependencyGraph} {a b : String} (h : Edge g a b) :
    Reach g a b := Relation.ReflTransGen.single h

theorem WF_pushState (g : DependencyGraph) (grays : List String) (v : String)
    (st : TarjanState) (hWF : WF g grays st) (hkey : v ∈ nodeKeys g)
    (hfresh : ¬vis st v)
    (hentry : (grays = [] ∧ st.stack = []) ∨
      (∃ p, grays.head? = some p ∧ Edge g p v)) :
    WF g (v :: grays) (pushState v st) := by
  have hvstack : v ∉ st.stack := fun h => hfresh (hWF.stack_vis v h)
  have hvgrays : v ∉ grays := fun h =>
    hfresh (hWF.stack_vis v (hWF.grays_sub v h))
  have hiN_old : ∀ u, vis st u → iN (pushState v st) u = iN st u :=
    fun u hu => iN_pushState_ne v st u (vis_ne_of_fresh hfresh hu)
  have hlN_old : ∀ u, vis st u → lN (pushState v st) u = lN st u :=
    fun u hu => lN_pushState_ne v st u (vis_ne_of_fresh hfresh hu)
  have hstack_ne_v : ∀ u ∈ st.stack, u ≠ v :=
    fun u hu => vis_ne_of_fresh hfresh (hWF.stack_vis u hu)
  have hreach_v : ∀ u ∈ st.stack, Reach g u v := by
    intro u hu
    rcases hentry with ⟨_, hemp⟩ | ⟨p, hp, hedge⟩
    · rw [hemp] at hu
      cases hu
    · rcases hWF.stack_gray u hu with ⟨u', hu', hle, hru⟩
      have hpg : p ∈ grays := List.mem_of_mem_head? hp
      have hps : p ∈ st.stack := hWF.grays_sub p hpg
      have hu's : u' ∈ st.stack := hWF.grays_sub u' hu'
      have hle' : iN st u' ≤ iN st p := by
        rcases hg : grays with _ | ⟨p0, rest⟩
        · rw [hg] at hp
          cases hp
        · rw [hg] at hp hu'
          have hpp0 : p = p0 := by
            simpa using hp.symm
          subst hpp0
          rcases List.mem_cons.mp hu' with rfl | hmem
          · exact le_refl _
          · exact le_of_lt
              (((List.pairwise_cons.mp (hg ▸ hWF.grays_sorted)).1) u' hmem)
      exact hru.trans ((hWF.stack_reach u' hu's p hps hle').trans
        (edge_reach hedge))
  constructor
  · intro u
    show u ∈ setAdd st.onStack v ↔ u ∈ v :: st.stack
    rw [mem_setAdd, List.mem_cons, hWF.onStack_iff u, or_comm]
  · exact List.nodup_cons.mpr ⟨hvstack, hWF.stack_nodup⟩
  · intro u hu
    rcases List.mem_cons.mp hu with rfl | hu
    · exact vis_pushState_self u st
    · exact (vis_pushState v st u).mpr (Or.inl (hWF.stack_vis u hu))
  · intro u hu
    rcases (vis_pushState v st u).mp hu with hu | rfl
    · exact hWF.vis_keys u hu
    · exact hkey
  · intro u hu
    show iN (pushState v st) u < st.index + 1
    rcases (vis_pushState v st u).mp hu with hu | rfl
    · rw [hiN_old u hu]
      exact lt_trans (hWF.idx_lt u hu) (Nat.lt_succ_self _)
    · rw [iN_pushState_self]
      exact Nat.lt_succ_self _
  · intro u w hu hw hiuw
    rcases (vis_pushState v st u).mp hu with hu' | huv
    · rcases (vis_pushState v st w).mp hw with hw' | hwv
      · exact hWF.idx_inj u w hu' hw'
          (by rwa [hiN_old u hu', hiN_old w hw'] at hiuw)
      · rw [hwv] at hiuw ⊢
        rw [hiN_old u hu', iN_pushState_self] at hiuw
        exact absurd hiuw (Nat.ne_of_lt (hWF.idx_lt u hu'))
    · rcases (vis_pushState v st w).mp hw with hw' | hwv
      · rw [huv] at hiuw ⊢
        rw [hiN_old w hw', iN_pushState_self] at hiuw
        exact absurd hiuw.symm (Nat.ne_of_lt (hWF.idx_lt w hw'))
      · rw [huv, hwv]
  · show List.Pairwise _ (v :: st.stack)
    rw [List.pairwise_cons]
    constructor
    · intro b hb
      rw [hiN_old b (hWF.stack_vis b hb), iN_pushState_self]
      exact hWF.idx_lt b (hWF.stack_vis b hb)
    · exact hWF.stack_sorted.imp_of_mem (by
        intro a b ha hb hab
        rwa [hiN_old a (hWF.stack_vis a ha), hiN_old b (hWF.stack_vis b hb)])
  · intro u hu
    rcases List.mem_cons.mp hu with rfl | hu
    · exact List.mem_cons_self _ _
    · exact List.mem_cons_of_mem _ (hWF.grays_sub u hu)
  · rw [List.pairwise_cons]
    constructor
    · intro b hb
      have hbv := hWF.stack_vis b (hWF.grays_sub b hb)
      rw [hiN_old b hbv, iN_pushState_self]
      exact hWF.idx_lt b hbv
    · exact hWF.grays_sorted.imp_of_mem (by
        intro a b ha hb hab
        rwa [hiN_old a (hWF.stack_vis a (hWF.grays_sub a ha)),
          hiN_old b (hWF.stack_vis b (hWF.grays_sub b hb))])
  · intro u hu hug w hw
    have huv : u ≠ v := fun h => hug (h ▸ List.mem_cons_self _ _)
    have hu' : vis st u := by
      rcases (vis_pushState v st u).mp hu with h | h
      · exact h
      · exact absurd h huv
    exact (vis_pushState v st w).mpr (Or.inl
      (hWF.blacks_explored u hu' (fun h => hug (List.mem_cons_of_mem _ h))
        w hw))
  · intro u hu hus w hw
    have huv : u ≠ v := fun h => hus (h ▸ List.mem_cons_self _ _)
    have hu' : vis st u := by
      rcases (vis_pushState v st u).mp hu with h | h
      · exact h
      · exact absurd h huv
    have hus' : u ∉ st.stack := fun h => hus (List.mem_cons_of_mem _ h)
    rcases hWF.done_closed u hu' hus' w hw with ⟨hw1, hw2⟩
    refine ⟨(vis_pushState v st w).mpr (Or.inl hw1), ?_⟩
    intro hmem
    rcases List.mem_cons.mp hmem with rfl | hmem
    · exact hfresh hw1
    · exact hw2 hmem
  · intro u hu w hw hle
    rcases List.mem_cons.mp hu with huv | hu'
    · rcases List.mem_cons.mp hw with hwv | hw'
      · rw [huv, hwv]
        exact Relation.ReflTransGen.refl
      · rw [huv] at hle
        rw [iN_pushState_self, hiN_old w (hWF.stack_vis w hw')] at hle
        exact absurd hle
          (Nat.not_le_of_lt (hWF.idx_lt w (hWF.stack_vis w hw')))
    · rcases List.mem_cons.mp hw with hwv | hw'
      · rw [hwv]
        exact hreach_v u hu'
      · rw [hiN_old u (hWF.stack_vis u hu'), hiN_old w (hWF.stack_vis w hw')]
          at hle
        exact hWF.stack_reach u hu' w hw' hle
  · intro b hb
    rcases List.mem_cons.mp hb with rfl | hb
    · exact ⟨b, List.mem_cons_self _ _, le_refl _, Relation.ReflTransGen.refl⟩
    · rcases hWF.stack_gray b hb with ⟨u, hu, hle, hr⟩
      refine ⟨u, List.mem_cons_of_mem _ hu, ?_, hr⟩
      rw [hiN_old u (hWF.stack_vis u (hWF.grays_sub u hu)),
        hiN_old b (hWF.stack_vis b hb)]
      exact hle
  · intro u hu
    rcases List.mem_cons.mp hu with huv | hu'
    · subst huv
      refine ⟨?_, u, List.mem_cons_self _ _, ?_, Relation.ReflTransGen.refl⟩
      · rw [lN_pushState_self, iN_pushState_self]
      · rw [lN_pushState_self, iN_pushState_self]
    · have hbv := hWF.stack_vis u hu'
      rw [lN_pushState_ne v st u (vis_ne_of_fresh hfresh hbv),
        hiN_old u hbv]
      rcases hWF.low_stack u hu' with ⟨hle, w, hws, hwi, hwr⟩
      refine ⟨hle, w, List.mem_cons_of_mem _ hws, ?_, hwr⟩
      rw [hiN_old w (hWF.stack_vis w hws)]
      exact hwi
  · intro u hu
    rcases List.mem_cons.mp hu with huv | hu'
    · subst huv
      show (mget (mset st.lowLinks u st.index) u).isSome = true
      rw [mget_mset_self]
      rfl
    · show (mget (mset st.lowLinks v st.index) u).isSome = true
      rw [mget_mset_ne st.lowLinks v st.index u
        (vis_ne_of_fresh hfresh (hWF.stack_vis u hu'))]
      exact hWF.low_some u hu'
  · intro c hc
    rcases hWF.comps_scc c hc with ⟨h1, h2, h3⟩
    refine ⟨h1, h2, ?_⟩
    intro a ha
    rcases h3 a ha with ⟨⟨hav, has⟩, h4⟩
    refine ⟨⟨(vis_pushState v st a).mpr (Or.inl hav), ?_⟩, h4⟩
    intro hmem
    rcases List.mem_cons.mp hmem with rfl | hmem
    · exact hfresh hav
    · exact has hmem
  · intro u hu hus hpart
    have huv : u ≠ v := fun h => hus (h ▸ List.mem_cons_self _ _)
    have hu' : vis st u := by
      rcases (vis_pushState v st u).mp hu with h | h
      · exact h
      · exact absurd h huv
    exact hWF.comps_complete u hu'
      (fun h => hus (List.mem_cons_of_mem _ h)) hpart
  · exact hWF.comps_disjoint

/-- The state after a low-link update of the innermost gray `v`. -/
def lowUpdState (v : String) (L : Nat) (st : TarjanState) : TarjanState :=
  { st with lowLinks := mset st.lowLinks v L }

theorem lN_lowUpdState_self (v : String) (L : Nat) (st : TarjanState) :
    lN (lowUpdState v L st) v = L := by
  unfold lN lowUpdState
  show (mget (mset st.lowLinks v L) v).getD 0 = L
  rw [mget_mset_self]
  rfl

theorem lN_lowUpdState_ne (v : String) (L : Nat) (st : TarjanState)
    (u : String) (h : u ≠ v) : lN (lowUpdState v L st) u = lN st u := by
  unfold lN lowUpdState
  show (mget (mset st.lowLinks v L) u).getD 0 = _
  rw [mget_mset_ne st.lowLinks v L u h]

theorem WF_lowUpdState (g : DependencyGraph) (grays : List String)
    (v : String) (st : TarjanState) (L : Nat)
    (hWF : WF g (v :: grays) st) (hL1 : L ≤ iN st v)
    (hL2 : ∃ w ∈ st.stack, iN st w = L ∧ Reach g v w) :
    WF g (v :: grays) (lowUpdState v L st) := by
  have hvstack : v ∈ st.stack := hWF.grays_sub v (List.mem_cons_self _ _)
  refine ⟨hWF.onStack_iff, hWF.stack_nodup, hWF.stack_vis, hWF.vis_keys,
    hWF.idx_lt, hWF.idx_inj, hWF.stack_sorted, hWF.grays_sub,
    hWF.grays_sorted, hWF.blacks_explored, hWF.done_closed, hWF.stack_reach,
    hWF.stack_gray, ?_, ?_, hWF.comps_scc, hWF.comps_complete,
    hWF.comps_disjoint⟩
  · intro u hu
    by_cases huv : u = v
    · subst huv
      show lN (lowUpdState u L st) u ≤ iN st u ∧ _
      rw [lN_lowUpdState_self]
      exact ⟨hL1, hL2⟩
    · show lN (lowUpdState v L st) u ≤ iN st u ∧
        ∃ w ∈ st.stack, iN st w = lN (lowUpdState v L st) u ∧ Reach g u w
      rw [lN_lowUpdState_ne v L st u huv]
      exact hWF.low_stack u hu
  · intro u hu
    by_cases huv : u = v
    · subst huv
      show (mget (mset st.lowLinks u L) u).isSome = true
      rw [mget_mset_self]
      rfl
    · show (mget (mset st.lowLinks v L) u).isSome = true
      rw [mget_mset_ne st.lowLinks v L u huv]
      exact hWF.low_some u hu

theorem popComponent_spec (S2 : List String) (v : String)
    (rest : List String) (hv : v ∉ S2) :
    popComponent (S2 ++ v :: rest) v = (S2 ++ [v], rest) := by
  induction S2 with
  | nil => simp [popComponent]
  | cons w t ih =>
    have hwv : w ≠ v := fun h => hv (h ▸ List.mem_cons_self _ _)
    show popComponent (w :: (t ++ v :: rest)) v = _
    rw [popComponent, if_neg hwv, ih (fun h => hv (List.mem_cons_of_mem _ h))]
    rfl

theorem edge_iff_dep {g : DependencyGraph} {v : String}
    {node : DependencyNode} (hnode : g.getNode v = some node) (w : String) :
    Edge g v w ↔ w ∈ node.dependencies := by
  constructor
  · rintro ⟨n, hn, hw⟩
    rw [hnode] at hn
    cases hn
    exact hw
  · intro hw
    exact ⟨node, hnode, hw⟩

theorem done_closed_reach {g : DependencyGraph} {grays : List String}
    {st : TarjanState} (hWF : WF g grays st) {x z : String}
    (hx : vis st x) (hxs : x ∉ st.stack) (h : Reach g x z) :
    vis st z ∧ z ∉ st.stack := by
  induction h with
  | refl => exact ⟨hx, hxs⟩
  | tail _ e ih => exact hWF.done_closed _ ih.1 ih.2 _ e

theorem strongConnect_post_nonroot (g : DependencyGraph)
    (grays : List String) (v : String) (st : TarjanState)
    (node : DependencyNode) (hnode : g.getNode v = some node)
    (hWF : WF g grays st) (hfresh : ¬vis st v) (st2 : TarjanState)
    (hVD : VDPost g grays v node.dependencies (pushState v st) st2)
    (hne : ¬mget st2.lowLinks v = mget st2.indices v) :
    SCPost g grays v st (closeComponent v st2) := by
  have hcc : closeComponent v st2 = st2 := by
    rw [closeComponent, if_neg hne]
  rw [hcc]
  have hwf2 := hVD.wf
  have hv_stack2 : v ∈ st2.stack :=
    hwf2.grays_sub v (List.mem_cons_self _ _)
  have hvis1v : vis (pushState v st) v := vis_pushState_self v st
  have hvis2v : vis st2 v := hVD.mono_vis v hvis1v
  have hidx2v : mget st2.indices v = some st.index := by
    rw [hVD.idx_pres v hvis1v]
    show mget (mset st.indices v st.index) v = _
    rw [mget_mset_self]
  have hiN2v : iN st2 v = st.index := by
    rw [iN, hidx2v]
    rfl
  rcases hVD.stack_split with ⟨S2, hS2eq, hS2fresh⟩
  have hS2eq' : st2.stack = S2 ++ v :: st.stack := hS2eq
  have hmono_vis_st : ∀ u, vis st u → vis st2 u := fun u hu =>
    hVD.mono_vis u ((vis_pushState v st u).mpr (Or.inl hu))
  have hidx_pres_st : ∀ u, vis st u →
      mget st2.indices u = mget st.indices u := fun u hu =>
    (hVD.idx_pres u ((vis_pushState v st u).mpr (Or.inl hu))).trans
      (idx_pushState_ne v st u (vis_ne_of_fresh hfresh hu))
  have hiN_pres : ∀ u, vis st u → iN st2 u = iN st u := fun u hu => by
    rw [iN, iN, hidx_pres_st u hu]
  have hlow_pres_st : ∀ u, vis st u → u ≠ v →
      mget st2.lowLinks u = mget st.lowLinks u := fun u hu huv =>
    (hVD.low_pres u ((vis_pushState v st u).mpr (Or.inl hu)) huv).trans
      (low_pushState_ne v st u huv)
  have hexpl_v : ∀ w, Edge g v w → vis st2 w := fun w hw =>
    hVD.deps_vis w ((edge_iff_dep hnode w).mp hw)
  have hLB : ∀ u ∈ st.stack,
      (∃ x, vis st2 x ∧ (x = v ∨ ¬vis st x) ∧ Edge g x u) →
        lN st2 v ≤ iN st u := by
    rintro u hu ⟨x, hx2, hxc, hxe⟩
    have hu1 : u ∈ (pushState v st).stack := List.mem_cons_of_mem _ hu
    have huvis : vis st u := hWF.stack_vis u hu
    have h2 : lN st2 v ≤ iN st2 u := by
      by_cases hxv : x = v
      · subst hxv
        exact hVD.low_bound u hu1 (Or.inr ⟨(edge_iff_dep hnode u).mp hxe,
          (vis_pushState x st u).mpr (Or.inl huvis)⟩)
      · have hxf : ¬vis st x := by
          rcases hxc with rfl | h
          · exact absurd rfl hxv
          · exact h
        refine hVD.low_bound u hu1 (Or.inl ⟨x, hx2, ?_, hxe⟩)
        intro hx1
        rcases (vis_pushState v st x).mp hx1 with h | h
        · exact hxf h
        · exact hxv h
    rwa [hiN_pres u huvis] at h2
  have hlowsome : mget st2.lowLinks v = some (lN st2 v) := by
    rcases Option.isSome_iff_exists.mp (hwf2.low_some v hv_stack2) with ⟨l, hl⟩
    rw [hl, lN, hl]
    rfl
  have hvalne : lN st2 v ≠ iN st2 v := by
    intro h
    apply hne
    rw [hlowsome, hidx2v, h, hiN2v]
  have hlow_lt : lN st2 v < iN st2 v :=
    lt_of_le_of_ne (hwf2.low_stack v hv_stack2).1 hvalne
  have hvwitness : ∃ u' ∈ grays, iN st2 u' ≤ iN st2 v ∧ Reach g v u' := by
    rcases hwf2.low_stack v hv_stack2 with ⟨_, w, hws, hwi, hwr⟩
    rcases hwf2.stack_gray w hws with ⟨u', hu', hule, hur⟩
    have hu'grays : u' ∈ grays := by
      rcases List.mem_cons.mp hu' with rfl | h
      · exfalso
        rw [hwi] at hule
        exact absurd (lt_of_le_of_lt hule hlow_lt) (lt_irrefl _)
      · exact h
    refine ⟨u', hu'grays, ?_, hwr.trans hur⟩
    rw [hwi] at hule
    exact le_of_lt (lt_of_le_of_lt hule hlow_lt)
  have hwfout : WF g grays st2 := by
    refine ⟨hwf2.onStack_iff, hwf2.stack_nodup, hwf2.stack_vis,
      hwf2.vis_keys, hwf2.idx_lt, hwf2.idx_inj, hwf2.stack_sorted,
      ?_, ?_, ?_, hwf2.done_closed, hwf2.stack_reach, ?_,
      hwf2.low_stack, hwf2.low_some, hwf2.comps_scc, hwf2.comps_complete,
      hwf2.comps_disjoint⟩
    · exact fun u hu => hwf2.grays_sub u (List.mem_cons_of_mem _ hu)
    · exact (List.pairwise_cons.mp hwf2.grays_sorted).2
    · intro u hu hug w hw
      by_cases huv : u = v
      · subst huv
        exact hexpl_v w hw
      · exact hwf2.blacks_explored u hu (by
          intro hmem
          rcases List.mem_cons.mp hmem with h | h
          · exact huv h
          · exact hug h) w hw
    · intro b hb
      rcases hwf2.stack_gray b hb with ⟨u, hu, hle, hr⟩
      rcases List.mem_cons.mp hu with rfl | hug
      · rcases hvwitness with ⟨u', hu', hule', hur'⟩
        exact ⟨u', hu', le_trans hule' hle, hr.trans hur'⟩
      · exact ⟨u, hug, hle, hr⟩
  refine ⟨hwfout, hvis2v, hiN2v, hmono_vis_st, hidx_pres_st, ?_, ?_, ?_,
    ?_, ?_, ?_, ?_⟩
  · exact fun u hu => hlow_pres_st u hu (vis_ne_of_fresh hfresh hu)
  · intro u hu2 hu
    by_cases huv : u = v
    · subst huv
      rw [hiN2v]
    · have h1 : ¬vis (pushState v st) u := by
        intro h
        rcases (vis_pushState v st u).mp h with h | h
        · exact hu h
        · exact huv h
      have := hVD.new_idx_ge u hu2 h1
      show st.index ≤ iN st2 u
      exact le_trans (Nat.le_succ _) this
  · exact lt_of_lt_of_le (Nat.lt_succ_self st.index) hVD.index_mono
  · refine ⟨S2 ++ [v], by rw [hS2eq']; simp, ?_⟩
    intro b hb
    rcases List.mem_append.mp hb with hb | hb
    · intro h
      exact hS2fresh b hb ((vis_pushState v st b).mpr (Or.inl h))
    · rw [List.mem_singleton.mp hb]
      exact hfresh
  · intro h
    exact absurd hv_stack2 h
  · rintro u hu ⟨x, hx2, hxf, hxe⟩
    exact hLB u hu ⟨x, hx2, Or.inr hxf, hxe⟩
  · exact hVD.comps_mono


theorem tarjan_R1 (g : DependencyGraph) (grays : List String) (v : String)
    (st st2 : TarjanState)
    (hWF : WF g grays st)
    (hwf2 : WF g (v :: grays) st2)
    (hvis2v : vis st2 v)
    (hexpl_v : ∀ w, Edge g v w → vis st2 w)
    (hLB : ∀ u ∈ st.stack,
      (∃ x, vis st2 x ∧ (x = v ∨ ¬vis st x) ∧ Edge g x u) →
        lN st2 v ≤ iN st u)
    (hrootN : lN st2 v = st.index) :
    ∀ y, Reach g v y →
      (vis st2 y ∧ (y = v ∨ ¬vis st y)) ∨ (vis st y ∧ y ∉ st.stack) := by
  intro y hy
  induction hy with
  | refl => exact Or.inl ⟨hvis2v, Or.inl rfl⟩
  | @tail y' z hseg e ih =>
    rcases ih with ⟨hv2y', hcase⟩ | ⟨hvy', hsy'⟩
    · have hv2z : vis st2 z := by
        by_cases hy'v : y' = v
        · subst hy'v
          exact hexpl_v z e
        · have hy'f : ¬vis st y' := by
            rcases hcase with h | h
            · exact absurd h hy'v
            · exact h
          have hnotg : y' ∉ v :: grays := by
            intro hmem
            rcases List.mem_cons.mp hmem with h | h
            · exact hy'v h
            · exact hy'f (hWF.stack_vis y' (hWF.grays_sub y' h))
          exact hwf2.blacks_explored y' hv2y' hnotg z e
      by_cases hvz : vis st z
      · by_cases hzs : z ∈ st.stack
        · exfalso
          have h1 := hLB z hzs ⟨y', hv2y', hcase, e⟩
          have h2 : iN st z < st.index := hWF.idx_lt z hvz
          rw [hrootN] at h1
          exact absurd (lt_of_le_of_lt h1 h2) (lt_irrefl _)
        · exact Or.inr ⟨hvz, hzs⟩
      · exact Or.inl ⟨hv2z, Or.inr hvz⟩
    · exact Or.inr (hWF.done_closed y' hvy' hsy' z e)

theorem tarjan_F2 (g : DependencyGraph) (grays : List String) (v : String)
    (st st2 : TarjanState) (S2 : List String)
    (hWF : WF g grays st)
    (hwf2 : WF g (v :: grays) st2)
    (hfresh : ¬vis st v)
    (hv_stack2 : v ∈ st2.stack)
    (hS2eq : st2.stack = S2 ++ v :: st.stack)
    (hR1 : ∀ y, Reach g v y →
      (vis st2 y ∧ (y = v ∨ ¬vis st y)) ∨ (vis st y ∧ y ∉ st.stack)) :
    ∀ x, Reach g v x → Reach g x v → x = v ∨ x ∈ S2 := by
  intro x hvx hxv
  rcases hR1 x hvx with ⟨hv2x, hcase⟩ | ⟨hvx', hsx⟩
  · by_cases hxs2 : x ∈ st2.stack
    · rw [hS2eq] at hxs2
      rcases List.mem_append.mp hxs2 with h | h
      · exact Or.inr h
      · rcases List.mem_cons.mp h with h | h
        · exact Or.inl h
        · rcases hcase with h' | h'
          · exact Or.inl h'
          · exact absurd (hWF.stack_vis x h) h'
    · exfalso
      exact absurd hv_stack2 (done_closed_reach hwf2 hv2x hxs2 hxv).2
  · exfalso
    exact hfresh (done_closed_reach hWF hvx' hsx hxv).1

/-- Facts available when `strongConnect v` closes a root component:
`st` is the pre-call state, `st2` the state after the dependency loop,
`S2` the new stack segment `v`'s exploration left on the stack. -/
structure RootCtx (g : DependencyGraph) (grays : List String) (v : String)
    (st st2 : TarjanState) (S2 : List String) : Prop where
  hWF : WF g grays st
  hwf2 : WF g (v :: grays) st2
  hfresh : ¬vis st v
  hvis2v : vis st2 v
  hv_stack2 : v ∈ st2.stack
  hiN2v : iN st2 v = st.index
  hS2eq : st2.stack = S2 ++ v :: st.stack
  hS2fresh : ∀ b ∈ S2, ¬vis st b
  hS2ne_v : v ∉ S2
  hmono_vis : ∀ u, vis st u → vis st2 u
  hiN_pres : ∀ u, vis st u → iN st2 u = iN st u
  hexpl_v : ∀ w, Edge g v w → vis st2 w
  hLB : ∀ u ∈ st.stack,
    (∃ x, vis st2 x ∧ (x = v ∨ ¬vis st x) ∧ Edge g x u) → lN st2 v ≤ iN st u
  hrootN : lN st2 v = st.index
  hS2_iN : ∀ b ∈ S2, st.index < iN st2 b

namespace RootCtx

variable {g : DependencyGraph} {grays : List String} {v : String}
  {st st2 : TarjanState} {S2 : List String}

theorem sub_stack (ctx : RootCtx g grays v st st2 S2) :
    ∀ x ∈ st.stack, x ∈ st2.stack := by
  intro x hx
  rw [ctx.hS2eq]
  exact List.mem_append_right _ (List.mem_cons_of_mem _ hx)

theorem hS2_stack (ctx : RootCtx g grays v st st2 S2) :
    ∀ b ∈ S2, b ∈ st2.stack := by
  intro b hb
  rw [ctx.hS2eq]
  exact List.mem_append_left _ hb

theorem hR1 (ctx : RootCtx g grays v st st2 S2) : ∀ y, Reach g v y →
    (vis st2 y ∧ (y = v ∨ ¬vis st y)) ∨ (vis st y ∧ y ∉ st.stack) :=
  tarjan_R1 g grays v st st2 ctx.hWF ctx.hwf2 ctx.hvis2v ctx.hexpl_v
    ctx.hLB ctx.hrootN

theorem hF2 (ctx : RootCtx g grays v st st2 S2) :
    ∀ x, Reach g v x → Reach g x v → x = v ∨ x ∈ S2 :=
  tarjan_F2 g grays v st st2 S2 ctx.hWF ctx.hwf2 ctx.hfresh ctx.hv_stack2
    ctx.hS2eq ctx.hR1

theorem hF1 (ctx : RootCtx g grays v st st2 S2) :
    ∀ b ∈ S2, SameSCC g v b := by
  intro b hb
  constructor
  · refine ctx.hwf2.stack_reach v ctx.hv_stack2 b (ctx.hS2_stack b hb) ?_
    rw [ctx.hiN2v]
    exact le_of_lt (ctx.hS2_iN b hb)
  · rcases ctx.hwf2.stack_gray b (ctx.hS2_stack b hb) with ⟨u', hu', hle, hr⟩
    rcases List.mem_cons.mp hu' with rfl | hgr
    · exact hr
    · have hvisu' : vis st u' :=
        ctx.hWF.stack_vis u' (ctx.hWF.grays_sub u' hgr)
      refine hr.trans (ctx.hwf2.stack_reach u'
        (ctx.hwf2.grays_sub u' (List.mem_cons_of_mem _ hgr)) v
        ctx.hv_stack2 ?_)
      rw [ctx.hiN_pres u' hvisu', ctx.hiN2v]
      exact le_of_lt (ctx.hWF.idx_lt u' hvisu')

theorem hPiff (ctx : RootCtx g grays v st st2 S2) :
    ∀ b, b ∈ S2 ++ [v] ↔ SameSCC g v b := by
  intro b
  constructor
  · intro hb
    rcases List.mem_append.mp hb with h | h
    · exact ctx.hF1 b h
    · rw [List.mem_singleton.mp h]
      exact sameSCC_refl g v
  · rintro ⟨h1, h2⟩
    rcases ctx.hF2 b h1 h2 with rfl | h
    · exact List.mem_append_right _ (List.mem_singleton.mpr rfl)
    · exact List.mem_append_left _ h

theorem hPnodup (ctx : RootCtx g grays v st st2 S2) :
    (S2 ++ [v]).Nodup := by
  have hsub : (S2 ++ [v]).Sublist st2.stack := by
    rw [ctx.hS2eq]
    exact List.Sublist.append_left
      (List.cons_sublist_cons.mpr (List.nil_sublist _)) S2
  exact ctx.hwf2.stack_nodup.sublist hsub

theorem hP_not_old (ctx : RootCtx g grays v st st2 S2) :
    ∀ b ∈ S2 ++ [v], b ∉ st.stack := by
  intro b hb
  rcases List.mem_append.mp hb with h | h
  · exact fun hmem => ctx.hS2fresh b h (ctx.hWF.stack_vis b hmem)
  · rw [List.mem_singleton.mp h]
    exact fun hmem => ctx.hfresh (ctx.hWF.stack_vis v hmem)

theorem hP_vis (ctx : RootCtx g grays v st st2 S2) :
    ∀ b ∈ S2 ++ [v], vis st2 b := by
  intro b hb
  rcases List.mem_append.mp hb with h | h
  · exact ctx.hwf2.stack_vis b (ctx.hS2_stack b h)
  · rw [List.mem_singleton.mp h]
    exact ctx.hvis2v

theorem hP_edge_no_old (ctx : RootCtx g grays v st st2 S2) :
    ∀ u ∈ S2 ++ [v], ∀ w, Edge g u w → vis st2 w ∧ w ∉ st.stack := by
  intro u hu w he
  have hcase : u = v ∨ ¬vis st u := by
    rcases List.mem_append.mp hu with h | h
    · exact Or.inr (ctx.hS2fresh u h)
    · exact Or.inl (List.mem_singleton.mp h)
  have hvisw : vis st2 w := by
    by_cases huv : u = v
    · subst huv
      exact ctx.hexpl_v w he
    · have hf : ¬vis st u := by
        rcases hcase with h | h
        · exact absurd h huv
        · exact h
      refine ctx.hwf2.blacks_explored u (ctx.hP_vis u hu) ?_ w he
      intro hmem
      rcases List.mem_cons.mp hmem with h | h
      · exact huv h
      · exact hf (ctx.hWF.stack_vis u (ctx.hWF.grays_sub u h))
  refine ⟨hvisw, ?_⟩
  intro hws
  have h1 := ctx.hLB w hws ⟨u, ctx.hP_vis u hu, hcase, he⟩
  rw [ctx.hrootN] at h1
  exact absurd (lt_of_le_of_lt h1 (ctx.hWF.idx_lt w
    (ctx.hWF.stack_vis w hws))) (lt_irrefl _)

theorem wf_closed (ctx : RootCtx g grays v st st2 S2) :
    WF g grays
      { st2 with
        stack := st.stack
        onStack := st2.onStack.filter (fun w => ¬ w ∈ S2 ++ [v])
        components := if 1 < (S2 ++ [v]).length
          then st2.components ++ [S2 ++ [v]] else st2.components } := by
  refine ⟨?_, ctx.hWF.stack_nodup, ?_, ctx.hwf2.vis_keys, ctx.hwf2.idx_lt,
    ctx.hwf2.idx_inj, ?_, ctx.hWF.grays_sub, ?_, ?_, ?_, ?_, ?_, ?_, ?_,
    ?_, ?_, ?_⟩
  · intro u
    show u ∈ st2.onStack.filter (fun w => ¬ w ∈ S2 ++ [v]) ↔ u ∈ st.stack
    rw [List.mem_filter]
    constructor
    · rintro ⟨h1, h2⟩
      have h2' : u ∉ S2 ++ [v] := by simpa using h2
      have hu2 : u ∈ st2.stack := (ctx.hwf2.onStack_iff u).mp h1
      rw [ctx.hS2eq] at hu2
      rcases List.mem_append.mp hu2 with h | h
      · exact absurd (List.mem_append_left _ h) h2'
      · rcases List.mem_cons.mp h with rfl | h
        · exact absurd
            (List.mem_append_right _ (List.mem_singleton.mpr rfl)) h2'
        · exact h
    · intro hu
      refine ⟨(ctx.hwf2.onStack_iff u).mpr (ctx.sub_stack u hu), ?_⟩
      simpa using fun hP => ctx.hP_not_old u hP hu
  · intro u hu
    exact ctx.hmono_vis u (ctx.hWF.stack_vis u hu)
  · refine ctx.hWF.stack_sorted.imp_of_mem ?_
    intro a b ha hb hab
    show iN st2 b < iN st2 a
    rw [ctx.hiN_pres a (ctx.hWF.stack_vis a ha),
      ctx.hiN_pres b (ctx.hWF.stack_vis b hb)]
    exact hab
  · refine ctx.hWF.grays_sorted.imp_of_mem ?_
    intro a b ha hb hab
    show iN st2 b < iN st2 a
    rw [ctx.hiN_pres a (ctx.hWF.stack_vis a (ctx.hWF.grays_sub a ha)),
      ctx.hiN_pres b (ctx.hWF.stack_vis b (ctx.hWF.grays_sub b hb))]
    exact hab
  · intro u hu hug w hw
    by_cases huv : u = v
    · subst huv
      exact ctx.hexpl_v w hw
    · refine ctx.hwf2.blacks_explored u hu ?_ w hw
      intro hmem
      rcases List.mem_cons.mp hmem with h | h
      · exact huv h
      · exact hug h
  · intro u hu hus w hw
    by_cases hu2 : u ∈ st2.stack
    · have huP : u ∈ S2 ++ [v] := by
        rw [ctx.hS2eq] at hu2
        rcases List.mem_append.mp hu2 with h | h
        · exact List.mem_append_left _ h
        · rcases List.mem_cons.mp h with rfl | h
          · exact List.mem_append_right _ (List.mem_singleton.mpr rfl)
          · exact absurd h hus
      exact ctx.hP_edge_no_old u huP w hw
    · have h := ctx.hwf2.done_closed u hu hu2 w hw
      exact ⟨h.1, fun hws => h.2 (ctx.sub_stack w hws)⟩
  · intro u hu w hw hle
    exact ctx.hwf2.stack_reach u (ctx.sub_stack u hu) w
      (ctx.sub_stack w hw) hle
  · intro b hb
    rcases ctx.hwf2.stack_gray b (ctx.sub_stack b hb) with ⟨u, hu, hle, hr⟩
    rcases List.mem_cons.mp hu with rfl | hg
    · exfalso
      have hb' : vis st b := ctx.hWF.stack_vis b hb
      rw [ctx.hiN2v, ctx.hiN_pres b hb'] at hle
      exact absurd (lt_of_le_of_lt hle (ctx.hWF.idx_lt b hb')) (lt_irrefl _)
    · exact ⟨u, hg, hle, hr⟩
  · intro u hu
    rcases ctx.hwf2.low_stack u (ctx.sub_stack u hu) with
      ⟨hle, w, hws, hwi, hwr⟩
    refine ⟨hle, w, ?_, hwi, hwr⟩
    have hvisu : vis st u := ctx.hWF.stack_vis u hu
    have hlt : iN st2 w < st.index := by
      rw [hwi]
      calc lN st2 u ≤ iN st2 u := hle
        _ = iN st u := ctx.hiN_pres u hvisu
        _ < st.index := ctx.hWF.idx_lt u hvisu
    rw [ctx.hS2eq] at hws
    rcases List.mem_append.mp hws with h | h
    · exact absurd hlt (not_lt_of_ge (le_of_lt (ctx.hS2_iN w h)))
    · rcases List.mem_cons.mp h with rfl | h
      · rw [ctx.hiN2v] at hlt
        exact absurd hlt (lt_irrefl _)
      · exact h
  · intro u hu
    exact ctx.hwf2.low_some u (ctx.sub_stack u hu)
  · intro c hc
    have hc' : c ∈ (if 1 < (S2 ++ [v]).length
        then st2.components ++ [S2 ++ [v]] else st2.components) := hc
    by_cases hemit : 1 < (S2 ++ [v]).length
    · rw [if_pos hemit] at hc'
      rcases List.mem_append.mp hc' with h | h
      · rcases ctx.hwf2.comps_scc c h with ⟨h1, h2, h3⟩
        refine ⟨h1, h2, ?_⟩
        intro a ha
        rcases h3 a ha with ⟨⟨hav, has⟩, h4⟩
        exact ⟨⟨hav, fun hmem => has (ctx.sub_stack a hmem)⟩, h4⟩
      · rw [List.mem_singleton.mp h]
        refine ⟨ctx.hPnodup, hemit, ?_⟩
        intro a ha
        have hva : SameSCC g v a := (ctx.hPiff a).mp ha
        refine ⟨⟨ctx.hP_vis a ha, ctx.hP_not_old a ha⟩, ?_⟩
        intro b
        rw [ctx.hPiff b]
        constructor
        · exact fun h' => sameSCC_trans (sameSCC_symm hva) h'
        · exact fun h' => sameSCC_trans hva h'
    · rw [if_neg hemit] at hc'
      rcases ctx.hwf2.comps_scc c hc' with ⟨h1, h2, h3⟩
      refine ⟨h1, h2, ?_⟩
      intro a ha
      rcases h3 a ha with ⟨⟨hav, has⟩, h4⟩
      exact ⟨⟨hav, fun hmem => has (ctx.sub_stack a hmem)⟩, h4⟩
  · intro u hu hus hpart
    by_cases hu2 : u ∈ st2.stack
    · have huP : u ∈ S2 ++ [v] := by
        rw [ctx.hS2eq] at hu2
        rcases List.mem_append.mp hu2 with h | h
        · exact List.mem_append_left _ h
        · rcases List.mem_cons.mp h with rfl | h
          · exact List.mem_append_right _ (List.mem_singleton.mpr rfl)
          · exact absurd h hus
      rcases hpart with ⟨w, hwne, hsame⟩
      have hvu : SameSCC g v u := (ctx.hPiff u).mp huP
      have hvw : SameSCC g v w := sameSCC_trans hvu hsame
      have hwP : w ∈ S2 ++ [v] := (ctx.hPiff w).mpr hvw
      have hemit : 1 < (S2 ++ [v]).length := by
        by_contra hnl
        rcases hS2nil : S2 with _ | ⟨a, t⟩
        · rw [hS2nil] at huP hwP
          simp only [List.nil_append, List.mem_singleton] at huP hwP
          exact hwne (hwP.trans huP.symm)
        · rw [hS2nil] at hnl
          simp [List.length_append] at hnl
      refine ⟨S2 ++ [v], ?_, huP⟩
      show S2 ++ [v] ∈ (if 1 < (S2 ++ [v]).length
        then st2.components ++ [S2 ++ [v]] else st2.components)
      rw [if_pos hemit]
      exact List.mem_append_right _ (List.mem_singleton.mpr rfl)
    · rcases ctx.hwf2.comps_complete u hu hu2 hpart with ⟨c, hc, huc⟩
      refine ⟨c, ?_, huc⟩
      show c ∈ (if 1 < (S2 ++ [v]).length
        then st2.components ++ [S2 ++ [v]] else st2.components)
      split
      · exact List.mem_append_left _ hc
      · exact hc
  · show List.Pairwise _ (if 1 < (S2 ++ [v]).length
      then st2.components ++ [S2 ++ [v]] else st2.components)
    split
    · rw [List.pairwise_append]
      refine ⟨ctx.hwf2.comps_disjoint, by simp, ?_⟩
      intro c hc P' hP' x hx
      rw [List.mem_singleton.mp hP']
      intro hxP
      rcases ctx.hwf2.comps_scc c hc with ⟨_, _, h3⟩
      have hxdone := (h3 x hx).1.2
      have hxs : x ∈ st2.stack := by
        rcases List.mem_append.mp hxP with h | h
        · exact ctx.hS2_stack x h
        · rw [List.mem_singleton.mp h]
          exact ctx.hv_stack2
      exact hxdone hxs
    · exact ctx.hwf2.comps_disjoint

end RootCtx

theorem strongConnect_post_root (g : DependencyGraph)
    (grays : List String) (v : String) (st : TarjanState)
    (node : DependencyNode) (hnode : g.getNode v = some node)
    (hWF : WF g grays st) (hfresh : ¬vis st v) (st2 : TarjanState)
    (hVD : VDPost g grays v node.dependencies (pushState v st) st2)
    (hroot : mget st2.lowLinks v = mget st2.indices v) :
    SCPost g grays v st (closeComponent v st2) := by
  have hwf2 := hVD.wf
  have hv_stack2 : v ∈ st2.stack :=
    hwf2.grays_sub v (List.mem_cons_self _ _)
  have hvis1v : vis (pushState v st) v := vis_pushState_self v st
  have hvis2v : vis st2 v := hVD.mono_vis v hvis1v
  have hidx2v : mget st2.indices v = some st.index := by
    rw [hVD.idx_pres v hvis1v]
    show mget (mset st.indices v st.index) v = _
    rw [mget_mset_self]
  have hiN2v : iN st2 v = st.index := by
    rw [iN, hidx2v]
    rfl
  rcases hVD.stack_split with ⟨S2, hS2eq, hS2fresh⟩
  have hS2eq' : st2.stack = S2 ++ v :: st.stack := hS2eq
  have hmono_vis_st : ∀ u, vis st u → vis st2 u := fun u hu =>
    hVD.mono_vis u ((vis_pushState v st u).mpr (Or.inl hu))
  have hidx_pres_st : ∀ u, vis st u →
      mget st2.indices u = mget st.indices u := fun u hu =>
    (hVD.idx_pres u ((vis_pushState v st u).mpr (Or.inl hu))).trans
      (idx_pushState_ne v st u (vis_ne_of_fresh hfresh hu))
  have hiN_pres : ∀ u, vis st u → iN st2 u = iN st u := fun u hu => by
    rw [iN, iN, hidx_pres_st u hu]
  have hlow_pres_st : ∀ u, vis st u → u ≠ v →
      mget st2.lowLinks u = mget st.lowLinks u := fun u hu huv =>
    (hVD.low_pres u ((vis_pushState v st u).mpr (Or.inl hu)) huv).trans
      (low_pushState_ne v st u huv)
  have hexpl_v : ∀ w, Edge g v w → vis st2 w := fun w hw =>
    hVD.deps_vis w ((edge_iff_dep hnode w).mp hw)
  have hLB : ∀ u ∈ st.stack,
      (∃ x, vis st2 x ∧ (x = v ∨ ¬vis st x) ∧ Edge g x u) →
        lN st2 v ≤ iN st u := by
    rintro u hu ⟨x, hx2, hxc, hxe⟩
    have hu1 : u ∈ (pushState v st).stack := List.mem_cons_of_mem _ hu
    have huvis : vis st u := hWF.stack_vis u hu
    have h2 : lN st2 v ≤ iN st2 u := by
      by_cases hxv : x = v
      · subst hxv
        exact hVD.low_bound u hu1 (Or.inr ⟨(edge_iff_dep hnode u).mp hxe,
          (vis_pushState x st u).mpr (Or.inl huvis)⟩)
      · have hxf : ¬vis st x := by
          rcases hxc with h | h
          · exact absurd h hxv
          · exact h
        refine hVD.low_bound u hu1 (Or.inl ⟨x, hx2, ?_, hxe⟩)
        intro hx1
        rcases (vis_pushState v st x).mp hx1 with h | h
        · exact hxf h
        · exact hxv h
    rwa [hiN_pres u huvis] at h2
  have hrootv : lN st2 v = iN st2 v := by
    rw [lN, iN, hroot]
  have hrootN : lN st2 v = st.index := by
    rw [hrootv, hiN2v]
  have hvS2 : v ∉ S2 := fun h => hS2fresh v h hvis1v
  have hS2fresh' : ∀ b ∈ S2, ¬vis st b := fun b hb h =>
    hS2fresh b hb ((vis_pushState v st b).mpr (Or.inl h))
  have hS2_iN : ∀ b ∈ S2, st.index < iN st2 b := by
    intro b hb
    have hb2 : b ∈ st2.stack := by
      rw [hS2eq']
      exact List.mem_append_left _ hb
    have hvisb : vis st2 b := hwf2.stack_vis b hb2
    exact lt_of_lt_of_le (Nat.lt_succ_self _)
      (hVD.new_idx_ge b hvisb (hS2fresh b hb))
  have ctx : RootCtx g grays v st st2 S2 :=
    ⟨hWF, hwf2, hfresh, hvis2v, hv_stack2, hiN2v, hS2eq', hS2fresh', hvS2,
      hmono_vis_st, hiN_pres, hexpl_v, hLB, hrootN, hS2_iN⟩
  have hpop : popComponent st2.stack v = (S2 ++ [v], st.stack) := by
    rw [hS2eq']
    exact popComponent_spec S2 v st.stack hvS2
  have hcc : closeComponent v st2 =
      { st2 with
        stack := st.stack
        onStack := st2.onStack.filter (fun w => ¬ w ∈ S2 ++ [v])
        components := if 1 < (S2 ++ [v]).length
          then st2.components ++ [S2 ++ [v]] else st2.components } := by
    rw [closeComponent, if_pos hroot, hpop]
  rw [hcc]
  refine ⟨ctx.wf_closed, hvis2v, hiN2v, hmono_vis_st, hidx_pres_st, ?_, ?_,
    ?_, ?_, ?_, ?_, ?_⟩
  · exact fun u hu => hlow_pres_st u hu (vis_ne_of_fresh hfresh hu)
  · intro u hu2 hu
    by_cases huv : u = v
    · subst huv
      show st.index ≤ iN st2 u
      exact le_of_eq hiN2v.symm
    · have h1 : ¬vis (pushState v st) u := by
        intro h
        rcases (vis_pushState v st u).mp h with h' | h'
        · exact hu h'
        · exact huv h'
      show st.index ≤ iN st2 u
      exact le_trans (Nat.le_succ _) (hVD.new_idx_ge u hu2 h1)
  · show st.index < st2.index
    exact lt_of_lt_of_le (Nat.lt_succ_self st.index) hVD.index_mono
  · exact ⟨[], by simp, by simp⟩
  · intro _
    show lN st2 v = iN st2 v
    exact hrootv
  · rintro u hu ⟨x, hx2, hxf, hxe⟩
    show lN st2 v ≤ iN st u
    exact hLB u hu ⟨x, hx2, Or.inr hxf, hxe⟩
  · rcases hVD.comps_mono with ⟨cs, hcs⟩
    have hcs' : st2.components = st.components ++ cs := hcs
    by_cases hemit : 1 < (S2 ++ [v]).length
    · refine ⟨cs ++ [S2 ++ [v]], ?_⟩
      show (if 1 < (S2 ++ [v]).length then st2.components ++ [S2 ++ [v]]
        else st2.components) = _
      rw [if_pos hemit, hcs', List.append_assoc]
    · refine ⟨cs, ?_⟩
      show (if 1 < (S2 ++ [v]).length then st2.components ++ [S2 ++ [v]]
        else st2.components) = _
      rw [if_neg hemit, hcs']

theorem vd_nil (g : DependencyGraph) (grays : List String) (v : String)
    (st : TarjanState) (hpre : VDPre g grays v [] st) :
    VDPost g grays v [] st st := by
  refine ⟨hpre.1, fun u hu => hu, fun u _ => rfl, fun u _ _ => rfl,
    ?_, le_refl _, ⟨[], rfl, by simp⟩, le_refl _, ?_, by simp,
    ⟨[], (List.append_nil _).symm⟩⟩
  · intro u hu hnu
    exact absurd hu hnu
  · rintro u hu (⟨x, hx1, hx2, _⟩ | ⟨h, _⟩)
    · exact absurd hx1 hx2
    · cases h

theorem vd_skip (g : DependencyGraph) (grays : List String) (v d : String)
    (ds : List String) (st st' : TarjanState)
    (hvisd : vis st d) (hnoton : d ∉ st.onStack)
    (hpre : VDPre g grays v (d :: ds) st)
    (hrec : VDPost g grays v ds st st') :
    VDPost g grays v (d :: ds) st st' := by
  have hdstack : d ∉ st.stack := fun h => hnoton ((hpre.1.onStack_iff d).mpr h)
  refine ⟨hrec.wf, hrec.mono_vis, hrec.idx_pres, hrec.low_pres,
    hrec.new_idx_ge, hrec.index_mono, hrec.stack_split, hrec.low_v_mono,
    ?_, ?_, hrec.comps_mono⟩
  · rintro u hu (h | ⟨hmem, hvis⟩)
    · exact hrec.low_bound u hu (Or.inl h)
    · rcases List.mem_cons.mp hmem with rfl | hmem
      · exact absurd hu hdstack
      · exact hrec.low_bound u hu (Or.inr ⟨hmem, hvis⟩)
  · intro e he
    rcases List.mem_cons.mp he with rfl | he
    · exact hrec.mono_vis e hvisd
    · exact hrec.deps_vis e he

theorem vd_back_pre (g : DependencyGraph) (grays : List String)
    (v d : String) (ds : List String) (st : TarjanState)
    (hvisd : vis st d) (hon : d ∈ st.onStack)
    (hpre : VDPre g grays v (d :: ds) st) :
    VDPre g grays v ds (lowUpdState v (min (lN st v) (iN st d)) st) := by
  have hWF := hpre.1
  have hvstack : v ∈ st.stack := hWF.grays_sub v (List.mem_cons_self _ _)
  have hdstack : d ∈ st.stack := (hWF.onStack_iff d).mp hon
  have hedge : Edge g v d := hpre.2 d (List.mem_cons_self _ _)
  refine ⟨WF_lowUpdState g grays v st _ hWF ?_ ?_, ?_⟩
  · exact le_trans (min_le_left _ _) (hWF.low_stack v hvstack).1
  · rcases le_total (lN st v) (iN st d) with hle | hle
    · rw [min_eq_left hle]
      rcases (hWF.low_stack v hvstack) with ⟨_, w, hws, hwi, hwr⟩
      exact ⟨w, hws, hwi, hwr⟩
    · rw [min_eq_right hle]
      exact ⟨d, hdstack, rfl, edge_reach hedge⟩
  · exact fun e he => hpre.2 e (List.mem_cons_of_mem _ he)

theorem vd_back_post (g : DependencyGraph) (grays : List String)
    (v d : String) (ds : List String) (st st' : TarjanState)
    (hvisd : vis st d) (hon : d ∈ st.onStack)
    (hpre : VDPre g grays v (d :: ds) st)
    (hrec : VDPost g grays v ds
      (lowUpdState v (min (lN st v) (iN st d)) st) st') :
    VDPost g grays v (d :: ds) st st' := by
  have hlowB : lN (lowUpdState v (min (lN st v) (iN st d)) st) v =
      min (lN st v) (iN st d) := lN_lowUpdState_self v _ st
  refine ⟨hrec.wf, hrec.mono_vis, hrec.idx_pres, ?_, hrec.new_idx_ge,
    hrec.index_mono, hrec.stack_split, ?_, ?_, ?_, hrec.comps_mono⟩
  · intro u hu huv
    rw [hrec.low_pres u hu huv]
    show mget (mset st.lowLinks v _) u = mget st.lowLinks u
    exact mget_mset_ne st.lowLinks v _ u huv
  · refine le_trans hrec.low_v_mono ?_
    rw [hlowB]
    exact min_le_left _ _
  · rintro u hu (h | ⟨hmem, hvis⟩)
    · exact hrec.low_bound u hu (Or.inl h)
    · rcases List.mem_cons.mp hmem with rfl | hmem
      · have h1 : lN st' v ≤ min (lN st v) (iN st u) := by
          rw [← hlowB]
          exact hrec.low_v_mono
        have h2 : iN st' u = iN st u := by
          rw [iN, iN, hrec.idx_pres u hvis]
          rfl
        rw [h2]
        exact le_trans h1 (min_le_right _ _)
      · exact hrec.low_bound u hu (Or.inr ⟨hmem, hvis⟩)
  · intro e he
    rcases List.mem_cons.mp he with rfl | he
    · exact hrec.mono_vis e hvisd
    · exact hrec.deps_vis e he

theorem vd_tree_childpre (g : DependencyGraph) (grays : List String)
    (v d : String) (ds : List String) (st : TarjanState)
    (hC : ClosedGraph g) (hd : mget st.indices d = none)
    (hpre : VDPre g grays v (d :: ds) st) :
    SCPre g (v :: grays) d st := by
  have hedge : Edge g v d := hpre.2 d (List.mem_cons_self _ _)
  refine ⟨hpre.1, hC v d hedge, ?_, Or.inr ⟨v, rfl, hedge⟩⟩
  show ¬(mget st.indices d).isSome = true
  rw [hd]
  simp

theorem vd_tree_pre (g : DependencyGraph) (grays : List String)
    (v d : String) (ds : List String) (st r1 : TarjanState)
    (hpre : VDPre g grays v (d :: ds) st)
    (hchild : SCPost g (v :: grays) d st r1) :
    VDPre g grays v ds (lowUpdState v (min (lN r1 v) (lN r1 d)) r1) := by
  have hWF := hpre.1
  have hvstack_st : v ∈ st.stack :=
    hWF.grays_sub v (List.mem_cons_self _ _)
  have hvis_st_v : vis st v := hWF.stack_vis v hvstack_st
  have hlow_v : lN r1 v = lN st v := by
    rw [lN, lN, hchild.low_pres v hvis_st_v]
  have hiN_v : iN r1 v = iN st v := by
    rw [iN, iN, hchild.idx_pres v hvis_st_v]
  have hwf1 := hchild.wf
  refine ⟨WF_lowUpdState g grays v r1 _ hwf1 ?_ ?_,
    fun e he => hpre.2 e (List.mem_cons_of_mem _ he)⟩
  · refine le_trans (min_le_left _ _) ?_
    rw [hlow_v, hiN_v]
    exact (hWF.low_stack v hvstack_st).1
  · by_cases hdstk : d ∈ r1.stack
    · rcases le_total (lN r1 v) (lN r1 d) with hle | hle
      · rw [min_eq_left hle, hlow_v]
        rcases hWF.low_stack v hvstack_st with ⟨_, w, hws, hwi, hwr⟩
        refine ⟨w, ?_, ?_, hwr⟩
        · rcases hchild.stack_split with ⟨S2c, hS2c, _⟩
          rw [hS2c]
          exact List.mem_append_right _ hws
        · show iN r1 w = lN st v
          rw [iN, hchild.idx_pres w (hWF.stack_vis w hws)]
          exact hwi
      · rw [min_eq_right hle]
        rcases hwf1.low_stack d hdstk with ⟨_, w, hws, hwi, hwr⟩
        exact ⟨w, hws, hwi,
          (edge_reach (hpre.2 d (List.mem_cons_self _ _))).trans hwr⟩
    · have hroot := hchild.root_done hdstk
      have hlNd : lN r1 d = st.index := by
        rw [hroot, hchild.idx_v]
      have hle : lN r1 v ≤ lN r1 d := by
        rw [hlNd, hlow_v]
        exact le_of_lt (lt_of_le_of_lt ((hWF.low_stack v hvstack_st).1)
          (hWF.idx_lt v hvis_st_v))
      rw [min_eq_left hle, hlow_v]
      rcases hWF.low_stack v hvstack_st with ⟨_, w, hws, hwi, hwr⟩
      refine ⟨w, ?_, ?_, hwr⟩
      · rcases hchild.stack_split with ⟨S2c, hS2c, _⟩
        rw [hS2c]
        exact List.mem_append_right _ hws
      · show iN r1 w = lN st v
        rw [iN, hchild.idx_pres w (hWF.stack_vis w hws)]
        exact hwi

theorem vd_tree_post (g : DependencyGraph) (grays : List String)
    (v d : String) (ds : List String) (st r1 st' : TarjanState)
    (hd : mget st.indices d = none)
    (hpre : VDPre g grays v (d :: ds) st)
    (hchild : SCPost g (v :: grays) d st r1)
    (hrec : VDPost g grays v ds
      (lowUpdState v (min (lN r1 v) (lN r1 d)) r1) st') :
    VDPost g grays v (d :: ds) st st' := by
  have hWF := hpre.1
  have hvstack_st : v ∈ st.stack :=
    hWF.grays_sub v (List.mem_cons_self _ _)
  have hvis_st_v : vis st v := hWF.stack_vis v hvstack_st
  have hlow_v : lN r1 v = lN st v := by
    rw [lN, lN, hchild.low_pres v hvis_st_v]
  have hstB_low : lN (lowUpdState v (min (lN r1 v) (lN r1 d)) r1) v =
      min (lN r1 v) (lN r1 d) := lN_lowUpdState_self v _ r1
  have hmono : ∀ u, vis st u → vis st' u := fun u hu =>
    hrec.mono_vis u (hchild.mono_vis u hu)
  have hidxp : ∀ u, vis st u → mget st'.indices u = mget st.indices u :=
    fun u hu =>
      (hrec.idx_pres u (hchild.mono_vis u hu)).trans (hchild.idx_pres u hu)
  have hstBstack : ∀ u ∈ st.stack,
      u ∈ (lowUpdState v (min (lN r1 v) (lN r1 d)) r1).stack := by
    intro u hu
    show u ∈ r1.stack
    rcases hchild.stack_split with ⟨S2c, hS2c, _⟩
    rw [hS2c]
    exact List.mem_append_right _ hu
  refine ⟨hrec.wf, hmono, hidxp, ?_, ?_, ?_, ?_, ?_, ?_, ?_, ?_⟩
  · intro u hu huv
    refine (hrec.low_pres u (hchild.mono_vis u hu) huv).trans ?_
    exact (mget_mset_ne r1.lowLinks v _ u huv).trans (hchild.low_pres u hu)
  · intro u hu' hnu
    by_cases h1 : vis r1 u
    · have h := hchild.new_idx_ge u h1 hnu
      have h2 : iN st' u = iN r1 u := by
        rw [iN, iN, hrec.idx_pres u h1]
        rfl
      rw [h2]
      exact h
    · exact le_trans (le_of_lt hchild.index_le) (hrec.new_idx_ge u hu' h1)
  · exact le_trans (le_of_lt hchild.index_le) hrec.index_mono
  · rcases hchild.stack_split with ⟨S2c, hc, hfc⟩
    rcases hrec.stack_split with ⟨S2r, hr, hfr⟩
    refine ⟨S2r ++ S2c, ?_, ?_⟩
    · rw [hr]
      show S2r ++ r1.stack = _
      rw [hc, List.append_assoc]
    · intro b hb
      rcases List.mem_append.mp hb with h | h
      · exact fun hv => hfr b h (hchild.mono_vis b hv)
      · exact hfc b h
  · refine le_trans hrec.low_v_mono ?_
    rw [hstB_low, ← hlow_v]
    exact min_le_left _ _
  · rintro u hu (⟨x, hx', hxn, he⟩ | ⟨hmem, hvis⟩)
    · by_cases hx1 : vis r1 x
      · have hb := hchild.low_bound u hu ⟨x, hx1, hxn, he⟩
        have h1 : lN st' v ≤ lN r1 d := by
          refine le_trans hrec.low_v_mono ?_
          rw [hstB_low]
          exact min_le_right _ _
        have h2 : iN st' u = iN st u := by
          rw [iN, iN, hidxp u (hWF.stack_vis u hu)]
        rw [h2]
        exact le_trans h1 hb
      · exact hrec.low_bound u (hstBstack u hu) (Or.inl ⟨x, hx', hx1, he⟩)
    · rcases List.mem_cons.mp hmem with rfl | hmem
      · exfalso
        rw [vis, hd] at hvis
        simp at hvis
      · exact hrec.low_bound u (hstBstack u hu)
          (Or.inr ⟨hmem, hchild.mono_vis u hvis⟩)
  · intro e he
    rcases List.mem_cons.mp he with rfl | he
    · exact hrec.mono_vis e hchild.vis_v
    · exact hrec.deps_vis e he
  · rcases hchild.comps_mono with ⟨c1, h1⟩
    rcases hrec.comps_mono with ⟨c2, h2⟩
    refine ⟨c1 ++ c2, ?_⟩
    rw [h2]
    show r1.components ++ c2 = _
    rw [h1, List.append_assoc]

theorem strongConnect_spec (g : DependencyGraph) (hC : ClosedGraph g) :
    ∀ (v : String) (st : TarjanState) (hv : mget st.indices v = none)
      (grays : List String), SCPre g grays v st →
        SCPost g grays v st (strongConnect g v st hv).1 := by
  intro v st hv
  refine strongConnect.induct g
    (fun v st hv => ∀ grays, SCPre g grays v st →
      SCPost g grays v st (strongConnect g v st hv).1)
    (fun v deps st => ∀ grays, VDPre g grays v deps st →
      VDPost g grays v deps st (visitDeps g v deps st).1)
    ?_ ?_ ?_ ?_ ?_ ?_ v st hv
  · intro v st hv st1 node hnode ih1 _ grays hpre
    have hvd := ih1 grays
      ⟨WF_pushState g grays v st hpre.1 hpre.2.1 hpre.2.2.1 hpre.2.2.2,
        fun e he => ⟨node, hnode, he⟩⟩
    have heq : (strongConnect g v st hv).1 =
        closeComponent v
          (visitDeps g v node.dependencies (pushState v st)).1 := by
      rw [strongConnect.eq_def]
      split
      · rename_i node' hnode'
        rw [hnode] at hnode'
        cases hnode'
        rfl
      · rename_i hnone
        rw [hnode] at hnone
        cases hnone
    rw [heq]
    by_cases hroot : mget (visitDeps g v node.dependencies
        (pushState v st)).1.lowLinks v =
        mget (visitDeps g v node.dependencies (pushState v st)).1.indices v
    · exact strongConnect_post_root g grays v st node hnode hpre.1
        hpre.2.2.1 _ hvd hroot
    · exact strongConnect_post_nonroot g grays v st node hnode hpre.1
        hpre.2.2.1 _ hvd hroot
  · intro v st hv hnone grays hpre
    exfalso
    have := (getNode_isSome_iff g v).mpr hpre.2.1
    rw [hnone] at this
    simp at this
  · intro v st grays hpre
    have heq : (visitDeps g v [] st).1 = st := by
      rw [visitDeps.eq_def]
    rw [heq]
    exact vd_nil g grays v st hpre
  · intro v st d ds h r stB ih1 ih2 _ grays hpre
    have hchild := ih1 (v :: grays)
      (vd_tree_childpre g grays v d ds st hC h hpre)
    have hrec := ih2 grays
      (vd_tree_pre g grays v d ds st (strongConnect g d st h).1 hpre hchild)
    have heq : (visitDeps g v (d :: ds) st).1 =
        (visitDeps g v ds
          (lowUpdState v
            (min (lN (strongConnect g d st h).1 v)
              (lN (strongConnect g d st h).1 d))
            (strongConnect g d st h).1)).1 := by
      conv_lhs => rw [visitDeps.eq_def]
      dsimp only
      rw [dif_pos h]
      rfl
    rw [heq]
    exact vd_tree_post g grays v d ds st (strongConnect g d st h).1 _ h
      hpre hchild hrec
  · intro v st d ds hnd hon stB ih _ grays hpre
    have hvisd : vis st d := by
      rw [vis, ← Option.ne_none_iff_isSome]
      exact hnd
    have hrec := ih grays (vd_back_pre g grays v d ds st hvisd hon hpre)
    have heq : (visitDeps g v (d :: ds) st).1 =
        (visitDeps g v ds (lowUpdState v (min (lN st v) (iN st d)) st)).1 := by
      conv_lhs => rw [visitDeps.eq_def]
      dsimp only
      rw [dif_neg hnd, if_pos hon]
      rfl
    rw [heq]
    exact vd_back_post g grays v d ds st _ hvisd hon hpre hrec
  · intro v st d ds hnd hnon ih grays hpre
    have hvisd : vis st d := by
      rw [vis, ← Option.ne_none_iff_isSome]
      exact hnd
    have hrec := ih grays
      ⟨hpre.1, fun e he => hpre.2 e (List.mem_cons_of_mem _ he)⟩
    have heq : (visitDeps g v (d :: ds) st).1 = (visitDeps g v ds st).1 := by
      conv_lhs => rw [visitDeps.eq_def]
      dsimp only
      rw [dif_neg hnd, if_neg hnon]
    rw [heq]
    exact vd_skip g grays v d ds st _ hvisd hnon hpre hrec

/-- No node is visited in the fresh state. -/
theorem vis_initial (u : String) : ¬ vis initialTarjanState u := by
  simp [vis, initialTarjanState, mget]

/-- The global invariant holds (vacuously) of the fresh state. -/
theorem WF_initial (g : DependencyGraph) : WF g [] initialTarjanState := by
  constructor <;> simp [initialTarjanState, vis, iN, lN, mget]

/-- Invariant of the root loop of `detectCycles`: starting from a state
satisfying the invariant with an empty gray path, folding the loop body
over any list of graph keys preserves the invariant, preserves
visitedness, and visits every root of the list. -/
theorem tarjanFold_inv (g : DependencyGraph) (hC : ClosedGraph g) :
    ∀ (roots : List String), (∀ r ∈ roots, r ∈ nodeKeys g) →
      ∀ (st : TarjanState), WF g [] st →
        WF g []
            (roots.foldl (fun st r =>
              if h : mget st.indices r = none then (strongConnect g r st h).1
              else st) st) ∧
        (∀ u, vis st u →
          vis (roots.foldl (fun st r =>
            if h : mget st.indices r = none then (strongConnect g r st h).1
            else st) st) u) ∧
        (∀ r ∈ roots,
          vis (roots.foldl (fun st r =>
            if h : mget st.indices r = none then (strongConnect g r st h).1
            else st) st) r) := by
  intro roots
  induction roots with
  | nil =>
    intro _ st hWF
    exact ⟨hWF, fun u hu => hu, fun r hr => absurd hr (List.not_mem_nil r)⟩
  | cons r t ih =>
    intro hkeys st hWF
    rw [List.foldl_cons]
    by_cases h : mget st.indices r = none
    · rw [dif_pos h]
      have hpre : SCPre g [] r st :=
        ⟨hWF, hkeys r (List.mem_cons_self r t),
          fun hv => (Option.ne_none_iff_isSome.mpr hv) h,
          Or.inl ⟨rfl, hWF.stack_empty_of_no_grays⟩⟩
      have hpost := strongConnect_spec g hC r st h [] hpre
      have hrest := ih (fun x hx => hkeys x (List.mem_cons_of_mem r hx))
        _ hpost.wf
      refine ⟨hrest.1, fun u hu => hrest.2.1 u (hpost.mono_vis u hu), ?_⟩
      intro x hx
      rcases List.mem_cons.mp hx with rfl | hxt
      · exact hrest.2.1 x hpost.vis_v
      · exact hrest.2.2 x hxt
    · rw [dif_neg h]
      have hvr : vis st r := Option.ne_none_iff_isSome.mp h
      have hrest := ih (fun x hx => hkeys x (List.mem_cons_of_mem r hx)) st hWF
      refine ⟨hrest.1, hrest.2.1, ?_⟩
      intro x hx
      rcases List.mem_cons.mp hx with rfl | hxt
      · exact hrest.2.1 x hvr
      · exact hrest.2.2 x hxt

/-- After `detectCyclesFrom` over graph keys, the invariant holds with no
grays and every root is visited. -/
theorem detectCyclesFrom_spec (g : DependencyGraph) (hC : ClosedGraph g)
    (roots : List String) (hkeys : ∀ r ∈ roots, r ∈ nodeKeys g) :
    WF g [] (detectCyclesFrom g roots) ∧
      ∀ r ∈ roots, vis (detectCyclesFrom g roots) r := by
  have h := tarjanFold_inv g hC roots hkeys initialTarjanState (WF_initial g)
  exact ⟨h.1, h.2.2⟩

/-- The final state of `detectCycles` satisfies the invariant and has
every graph key visited. -/
theorem detectCycles_WF (g : DependencyGraph) (hC : ClosedGraph g) :
    WF g [] (detectCyclesFrom g (g.getAllNodes.map (fun n => n.filePath))) ∧
      ∀ r ∈ nodeKeys g,
        vis (detectCyclesFrom g (g.getAllNodes.map (fun n => n.filePath))) r := by
  have heq : g.getAllNodes.map (fun n => n.filePath) = nodeKeys g := rfl
  rw [heq]
  exact detectCyclesFrom_spec g hC (nodeKeys g) (fun r hr => hr)

/-- Soundness: every component returned by `detectCycles` is duplicate
free, has at least two nodes, and is exactly a strongly connected
component (strongly connected and maximal). -/
theorem detectCycles_sound (g : DependencyGraph) (hC : ClosedGraph g) :
    ∀ c ∈ detectCycles g, c.Nodup ∧ 2 ≤ c.length ∧
      ∀ a ∈ c, ∀ b, (b ∈ c ↔ SameSCC g a b) := by
  intro c hc
  have h := (detectCycles_WF g hC).1
  rcases h.comps_scc c hc with ⟨hnd, hlen, hmem⟩
  exact ⟨hnd, hlen, fun a ha b => (hmem a ha).2 b⟩

/-- A node nontrivially in the same SCC as another is a key of the graph. -/
theorem sameSCC_mem_keys {g : DependencyGraph} {a b : String} (hne : a ≠ b)
    (h : SameSCC g a b) : a ∈ nodeKeys g := by
  have h1 : Relation.ReflTransGen (Edge g) a b := h.1
  rcases Relation.ReflTransGen.cases_head h1 with heq | ⟨x, hax, _⟩
  · exact absurd heq hne
  · rcases hax with ⟨n, hn, _⟩
    exact (getNode_isSome_iff g a).mp (by rw [hn]; rfl)

/-- Completeness: every strongly connected component with at least two
nodes shows up in the output of `detectCycles`. -/
theorem detectCycles_complete (g : DependencyGraph) (hC : ClosedGraph g) :
    ∀ a b, a ≠ b → SameSCC g a b →
      ∃ c ∈ detectCycles g, a ∈ c ∧ b ∈ c := by
  intro a b hne hab
  obtain ⟨hWFf, hvisAll⟩ := detectCycles_WF g hC
  have hak : a ∈ nodeKeys g := sameSCC_mem_keys hne hab
  have hva := hvisAll a hak
  have hstack := hWFf.stack_empty_of_no_grays
  have hns : a ∉ (detectCyclesFrom g
      (g.getAllNodes.map (fun n => n.filePath))).stack := by
    rw [hstack]
    exact List.not_mem_nil a
  rcases hWFf.comps_complete a hva hns ⟨b, Ne.symm hne, hab⟩ with ⟨c, hc, hac⟩
  refine ⟨c, hc, hac, ?_⟩
  rcases hWFf.comps_scc c hc with ⟨_, _, hmem⟩
  exact ((hmem a hac).2 b).mpr hab

/-- The components returned by `detectCycles` are pairwise disjoint. -/
theorem detectCycles_disjoint (g : DependencyGraph) (hC : ClosedGraph g) :
    (detectCycles g).Pairwise (fun c d => ∀ x ∈ c, x ∉ d) := by
  have h := (detectCycles_WF g hC).1
  exact h.comps_disjoint

/-- A duplicate-free list of length at least two holds two distinct
elements. -/
theorem exists_two_distinct {c : List String} (hnd : c.Nodup)
    (hlen : 2 ≤ c.length) : ∃ a ∈ c, ∃ b ∈ c, a ≠ b := by
  rcases c with _ | ⟨a, _ | ⟨b, t⟩⟩
  · simp at hlen
  · simp at hlen
  · refine ⟨a, List.mem_cons_self a _, b,
      List.mem_cons_of_mem a (List.mem_cons_self b t), ?_⟩
    intro h
    rw [h] at hnd
    exact (List.nodup_cons.mp hnd).1 (List.mem_cons_self b t)

/-- The two-module input `{A -> B, B -> A}` of the claim. -/
def twoCycleModules : List ParsedModule :=
  [⟨"A", ["B"], [], [], [], 0, 0⟩, ⟨"B", ["A"], [], [], [], 0, 0⟩]

/-- The acyclic chain input `{A -> B, B -> C, C}` of the claim. -/
def chainModules : List ParsedModule :=
  [⟨"A", ["B"], [], [], [], 0, 0⟩, ⟨"B", ["C"], [], [], [], 0, 0⟩,
    ⟨"C", [], [], [], [], 0, 0⟩]

/-- Edges of the two-module cycle graph. -/
theorem edge_twoCycle (x y : String) :
    Edge (buildGraph twoCycleModules) x y ↔
      ((x = "A" ∧ y = "B") ∨ (x = "B" ∧ y = "A")) := by
  unfold Edge
  rw [buildGraph_dependencies]
  simp only [twoCycleModules, List.mem_cons, List.not_mem_nil, or_false]
  constructor
  · rintro ⟨m, (rfl | rfl), hfp, hy⟩
    · exact Or.inl ⟨hfp.symm, by simpa using hy⟩
    · exact Or.inr ⟨hfp.symm, by simpa using hy⟩
  · rintro (⟨rfl, rfl⟩ | ⟨rfl, rfl⟩)
    · exact ⟨⟨"A", ["B"], [], [], [], 0, 0⟩, Or.inl rfl, rfl, by simp⟩
    · exact ⟨⟨"B", ["A"], [], [], [], 0, 0⟩, Or.inr rfl, rfl, by simp⟩

/-- `A` and `B` are mutually reachable in the two-module cycle graph. -/
theorem sameSCC_twoCycle : SameSCC (buildGraph twoCycleModules) "A" "B" := by
  have hAB : Edge (buildGraph twoCycleModules) "A" "B" :=
    (edge_twoCycle "A" "B").mpr (Or.inl ⟨rfl, rfl⟩)
  have hBA : Edge (buildGraph twoCycleModules) "B" "A" :=
    (edge_twoCycle "B" "A").mpr (Or.inr ⟨rfl, rfl⟩)
  exact ⟨Relation.ReflTransGen.single hAB, Relation.ReflTransGen.single hBA⟩

/-- On the two-module cycle input, exactly one cycle is returned and it
contains both `A` and `B`. -/
theorem twoCycle_result :
    (detectCycles (buildGraph twoCycleModules)).length = 1 ∧
      ∀ c ∈ detectCycles (buildGraph twoCycleModules), "A" ∈ c ∧ "B" ∈ c := by
  have hC := buildGraph_closed twoCycleModules
  have hall : ∀ c ∈ detectCycles (buildGraph twoCycleModules),
      "A" ∈ c ∧ "B" ∈ c := by
    intro c hc
    rcases detectCycles_sound _ hC c hc with ⟨hnd, hlen, hmem⟩
    rcases exists_two_distinct hnd hlen with ⟨a, ha, b, hb, hab⟩
    have hscc : SameSCC (buildGraph twoCycleModules) a b := (hmem a ha b).mp hb
    have hak : a ∈ nodeKeys (buildGraph twoCycleModules) :=
      sameSCC_mem_keys hab hscc
    have hbk : b ∈ nodeKeys (buildGraph twoCycleModules) :=
      sameSCC_mem_keys (Ne.symm hab) (sameSCC_symm hscc)
    have hkeys : nodeKeys (buildGraph twoCycleModules) = ["A", "B"] := rfl
    rw [hkeys] at hak hbk
    rcases List.mem_cons.mp hak with rfl | hak
    · rcases List.mem_cons.mp hbk with rfl | hbk
      · exact absurd rfl hab
      · have hb' : b = "B" := by simpa using hbk
        subst hb'
        exact ⟨ha, hb⟩
    · have ha' : a = "B" := by simpa using hak
      subst ha'
      rcases List.mem_cons.mp hbk with rfl | hbk
      · exact ⟨hb, ha⟩
      · have hb' : b = "B" := by simpa using hbk
        exact absurd hb'.symm hab
  refine ⟨?_, hall⟩
  rcases detectCycles_complete _ hC "A" "B" (by decide) sameSCC_twoCycle with
    ⟨c0, hc0, _, _⟩
  have hdisj := detectCycles_disjoint _ hC
  rcases hL : detectCycles (buildGraph twoCycleModules) with
    _ | ⟨c1, _ | ⟨c2, rest⟩⟩
  · rw [hL] at hc0
    exact absurd hc0 (List.not_mem_nil c0)
  · rfl
  · exfalso
    rw [hL] at hdisj hall
    have h12 := (List.pairwise_cons.mp hdisj).1 c2 (List.mem_cons_self c2 rest)
    exact h12 "A" (hall c1 (List.mem_cons_self _ _)).1
      (hall c2 (List.mem_cons_of_mem _ (List.mem_cons_self _ _))).1

/-- Edges of the chain graph. -/
theorem edge_chain (x y : String) :
    Edge (buildGraph chainModules) x y ↔
      ((x = "A" ∧ y = "B") ∨ (x = "B" ∧ y = "C")) := by
  unfold Edge
  rw [buildGraph_dependencies]
  simp only [chainModules, List.mem_cons, List.not_mem_nil, or_false]
  constructor
  · rintro ⟨m, (rfl | rfl | rfl), hfp, hy⟩
    · exact Or.inl ⟨hfp.symm, by simpa using hy⟩
    · exact Or.inr ⟨hfp.symm, by simpa using hy⟩
    · exact absurd hy (List.not_mem_nil y)
  · rintro (⟨rfl, rfl⟩ | ⟨rfl, rfl⟩)
    · exact ⟨⟨"A", ["B"], [], [], [], 0, 0⟩, Or.inl rfl, rfl, by simp⟩
    · exact ⟨⟨"B", ["C"], [], [], [], 0, 0⟩, Or.inr (Or.inl rfl), rfl, by simp⟩

/-- The chain graph has no nontrivial strongly connected component. -/
theorem chain_no_scc (a b : String)
    (h : SameSCC (buildGraph chainModules) a b) : a = b := by
  have hcls : ∀ u w : String, Reach (buildGraph chainModules) u w →
      u = w ∨ (u = "A" ∧ w = "B") ∨ (u = "A" ∧ w = "C") ∨
        (u = "B" ∧ w = "C") := by
    intro u w hr
    have hr' : Relation.ReflTransGen (Edge (buildGraph chainModules)) u w := hr
    clear hr
    induction hr' with
    | refl => exact Or.inl rfl
    | tail h1 h2 ih =>
      rw [edge_chain] at h2
      rcases h2 with ⟨rfl, rfl⟩ | ⟨rfl, rfl⟩ <;>
        rcases ih with rfl | ⟨rfl, h'⟩ | ⟨rfl, h'⟩ | ⟨rfl, h'⟩ <;>
        first
          | exact Or.inr (Or.inl ⟨rfl, rfl⟩)
          | exact Or.inr (Or.inr (Or.inl ⟨rfl, rfl⟩))
          | exact Or.inr (Or.inr (Or.inr ⟨rfl, rfl⟩))
          | exact absurd h' (by decide)
  rcases hcls a b h.1 with rfl | ⟨rfl, rfl⟩ | ⟨rfl, rfl⟩ | ⟨rfl, rfl⟩
  · rfl
  all_goals
    rcases hcls _ _ h.2 with h' | ⟨h1, h2⟩ | ⟨h1, h2⟩ | ⟨h1, h2⟩ <;>
      first
        | exact absurd h' (by decide)
        | exact absurd h1 (by decide)
        | exact absurd h2 (by decide)

/-- On the acyclic chain input, no cycle is returned. -/
theorem chain_result : detectCycles (buildGraph chainModules) = [] := by
  have hC := buildGraph_closed chainModules
  rw [List.eq_nil_iff_forall_not_mem]
  intro c hc
  rcases detectCycles_sound _ hC c hc with ⟨hnd, hlen, hmem⟩
  rcases exists_two_distinct hnd hlen with ⟨a, ha, b, hb, hab⟩
  exact hab (chain_no_scc a b ((hmem a ha b).mp hb))

/-- C1: for every input module list, `detectCycles` on the constructed
graph returns exactly the strongly connected components of size at least
two of the dependency graph: every returned list is duplicate free, has
at least two nodes, is strongly connected via dependency edges and
maximal (membership coincides with mutual reachability); every SCC with
at least two nodes is returned; the returned components are pairwise
disjoint (so no component of size one is ever returned, and no SCC is
listed twice). In particular, on the input `{A -> B, B -> A}` exactly one
cycle is returned and it contains both `A` and `B`, and on the acyclic
chain `{A -> B, B -> C, C}` no cycle is returned. -/
theorem detectCycles_sccs (ms : List ParsedModule) :
    ((∀ c ∈ detectCycles (buildGraph ms), c.Nodup ∧ 2 ≤ c.length ∧
        ∀ a ∈ c, ∀ b, (b ∈ c ↔ SameSCC (buildGraph ms) a b)) ∧
      (∀ a b, a ≠ b → SameSCC (buildGraph ms) a b →
        ∃ c ∈ detectCycles (buildGraph ms), a ∈ c ∧ b ∈ c) ∧
      (detectCycles (buildGraph ms)).Pairwise (fun c d => ∀ x ∈ c, x ∉ d)) ∧
    ((detectCycles (buildGraph twoCycleModules)).length = 1 ∧
      ∀ c ∈ detectCycles (buildGraph twoCycleModules), "A" ∈ c ∧ "B" ∈ c) ∧
    detectCycles (buildGraph chainModules) = [] :=
  ⟨⟨detectCycles_sound (buildGraph ms) (buildGraph_closed ms),
    detectCycles_complete (buildGraph ms) (buildGraph_closed ms),
    detectCycles_disjoint (buildGraph ms) (buildGraph_closed ms)⟩,
    twoCycle_result, chain_result⟩
